import Mathlib

/-!
Verification development for the `sdr-scanner` repository.

Each Python function under study is translated into a Lean definition over a
shallow embedding:

* frequencies and sample rates are integers (hertz); the advertised sample
  rates of the receivers are even integers, so Python's exact float division
  `bandwidth / 2` coincides with integer division on every input considered;
* wall-clock times, durations and audio samples are rationals (exact stand-ins
  for Python floats);
* Python `dict`/`set` values become functions into `Option` and `Finset`;
* a Python function that can raise (KeyError, ValueError, a `raise`
  statement) or spin forever returns an `Option`, with `none` for the failure;
* stateful methods become pure functions returning the (result, new state)
  pair; `gnuradio` block parameters that a method merely forwards (squelch
  state, mute state of a `mute_ff` block) are carried as explicit fields.

Source files referenced: `sdr_scanner/Scanner.py`, `ScanWindow.py`,
`Channel.py`, `Receiver.py`, `hpSharedMem.py`, `AudioServer.py`.
-/

namespace SdrScanner

/-! ### ScanWindow.fromJson rate selection (ScanWindow.py lines 61-103) -/

/-- `rfSampleRate = min([rate for rate in rfSampleRates if rate >= rfBandwidth])`
(ScanWindow.py line 71).  Python's `min` raises `ValueError` on an empty
list; that failure is `none`. -/
def selectRfSampleRate (rfSampleRates : List Nat) (rfBandwidth : Nat) : Option Nat :=
  (rfSampleRates.filter (fun rate => rfBandwidth ≤ rate)).min?

/-- The audio-rate search loop of `ScanWindow.fromJson` (ScanWindow.py lines
82-87): `n = rfSampleRate // AUDIO_SAMPLERATE; while n > 0: if rfSampleRate %
n == 0: audioSampleRate = rfSampleRate // n; break; n -= 1`.  The argument of
the recursion is the loop counter `n`. -/
def audioRateSearch (rfSampleRate : Nat) : Nat → Option Nat
  | 0 => none
  | n + 1 =>
    if rfSampleRate % (n + 1) = 0 then some (rfSampleRate / (n + 1))
    else audioRateSearch rfSampleRate n

/-- The audio-rate choice of `ScanWindow.fromJson` (ScanWindow.py lines
76-89).  `AUDIO_SAMPLERATE` is a parameter: `const.py` is not among the staged
sources.  `none` models the `raise` on a failed search. -/
def selectAudioSampleRate (rfSampleRate AUDIO_SAMPLERATE : Nat) : Option Nat :=
  if rfSampleRate % AUDIO_SAMPLERATE = 0 then some AUDIO_SAMPLERATE
  else audioRateSearch rfSampleRate (rfSampleRate / AUDIO_SAMPLERATE)

theorem audioRateSearch_exists_max (rf : Nat) :
    ∀ n, 0 < n → ∃ m, 0 < m ∧ m ≤ n ∧ m ∣ rf ∧
      (∀ k, k ∣ rf → k ≤ n → k ≤ m) ∧
      audioRateSearch rf n = some (rf / m) := by
  intro n
  induction n with
  | zero => intro h; exact absurd h (by omega)
  | succ n ih =>
    intro _
    by_cases hdvd : rf % (n + 1) = 0
    · refine ⟨n + 1, by omega, le_refl _, Nat.dvd_of_mod_eq_zero hdvd,
        fun k _ hk => hk, ?_⟩
      simp [audioRateSearch, hdvd]
    · have hn : 0 < n := by
        rcases Nat.eq_zero_or_pos n with h0 | h0
        · subst h0
          exact absurd (Nat.mod_one rf) hdvd
        · exact h0
      obtain ⟨m, hm0, hmn, hmdvd, hmax, heq⟩ := ih hn
      refine ⟨m, hm0, Nat.le_succ_of_le hmn, hmdvd, ?_, ?_⟩
      · intro k hk hkn
        rcases Nat.lt_or_ge k (n + 1) with h | h
        · exact hmax k hk (by omega)
        · exfalso
          have : k = n + 1 := by omega
          subst this
          exact hdvd (Nat.mod_eq_zero_of_dvd hk)
      · simpa [audioRateSearch, hdvd] using heq

/-- C6 (amended): the RF sample rate chosen by `ScanWindow.fromJson` is the
smallest advertised rate at least the window bandwidth, and — when the RF rate
is not an exact multiple of `AUDIO_SAMPLERATE` — the audio rate chosen is the
SMALLEST divisor of the RF rate that is at least `AUDIO_SAMPLERATE` (the loop
counts the cofactor `n` downward from `rfSampleRate // AUDIO_SAMPLERATE`), not
the largest divisor below it. -/
theorem C6_rate_selection (rfSampleRates : List Nat) (rfBandwidth : Nat)
    (rfSampleRate AUDIO : Nat)
    (hmem : ∃ r ∈ rfSampleRates, rfBandwidth ≤ r)
    (hA : 0 < AUDIO) (hAle : AUDIO ≤ rfSampleRate) :
    (∃ r, selectRfSampleRate rfSampleRates rfBandwidth = some r ∧
       r ∈ rfSampleRates ∧ rfBandwidth ≤ r ∧
       ∀ s ∈ rfSampleRates, rfBandwidth ≤ s → r ≤ s) ∧
    (∃ a, selectAudioSampleRate rfSampleRate AUDIO = some a ∧
       a ∣ rfSampleRate ∧ AUDIO ≤ a ∧
       ∀ d, d ∣ rfSampleRate → AUDIO ≤ d → a ≤ d) := by
  constructor
  · obtain ⟨r₀, hr₀, hbw₀⟩ := hmem
    have hne : rfSampleRates.filter (fun rate => rfBandwidth ≤ rate) ≠ [] := by
      intro h
      have := List.filter_eq_nil_iff.mp h r₀ hr₀
      simp [hbw₀] at this
    obtain ⟨r, hr⟩ : ∃ r,
        (rfSampleRates.filter (fun rate => rfBandwidth ≤ rate)).min? = some r := by
      cases hmin : (rfSampleRates.filter (fun rate => rfBandwidth ≤ rate)).min? with
      | none => exact absurd (List.min?_eq_none_iff.mp hmin) hne
      | some r => exact ⟨r, rfl⟩
    have hchar := List.min?_eq_some_iff'.mp hr
    refine ⟨r, hr, ?_, ?_, ?_⟩
    · exact (List.mem_filter.mp hchar.1).1
    · have := (List.mem_filter.mp hchar.1).2
      simpa using this
    · intro s hs hbs
      exact hchar.2 s (List.mem_filter.mpr ⟨hs, by simpa using hbs⟩)
  · have hrf : 0 < rfSampleRate := lt_of_lt_of_le hA hAle
    by_cases hdvd : rfSampleRate % AUDIO = 0
    · refine ⟨ AUDIO, by simp [selectAudioSampleRate, hdvd],
        Nat.dvd_of_mod_eq_zero hdvd, le_refl _, fun d _ hd => hd⟩
    · have hn : 0 < rfSampleRate / AUDIO := Nat.div_pos hAle hA
      obtain ⟨m, hm0, hmn, hmdvd, hmax, heq⟩ :=
        audioRateSearch_exists_max rfSampleRate (rfSampleRate / AUDIO) hn
      refine ⟨rfSampleRate / m, by simp [selectAudioSampleRate, hdvd, heq],
        Nat.div_dvd_of_dvd hmdvd, ?_, ?_⟩
      · have hle : m * AUDIO ≤ rfSampleRate := (Nat.le_div_iff_mul_le hA).mp hmn
        exact (Nat.le_div_iff_mul_le hm0).mpr (by rw [Nat.mul_comm]; exact hle)
      · intro d hddvd hdle
        have hd0 : 0 < d := lt_of_lt_of_le hA hdle
        have hk : rfSampleRate / d ∣ rfSampleRate := Nat.div_dvd_of_dvd hddvd
        have hkn : rfSampleRate / d ≤ rfSampleRate / AUDIO :=
          Nat.div_le_div_left hdle hA
        have hkm : rfSampleRate / d ≤ m := hmax _ hk hkn
        have hk0 : 0 < rfSampleRate / d :=
          Nat.div_pos (Nat.le_of_dvd hrf hddvd) hd0
        calc rfSampleRate / m ≤ rfSampleRate / (rfSampleRate / d) :=
              Nat.div_le_div_left hkm hk0
          _ = d := Nat.div_div_self hddvd (by omega)

/-- C6 witness: rates {1024000, 2048000}, bandwidth 1600000, audio rate
48000. -/
theorem C6_rate_selection_witness :
    (∃ r, selectRfSampleRate [1024000, 2048000] 1600000 = some r ∧
       r ∈ [1024000, 2048000] ∧ 1600000 ≤ r ∧
       ∀ s ∈ [1024000, 2048000], 1600000 ≤ s → r ≤ s) ∧
    (∃ a, selectAudioSampleRate 2048000 48000 = some a ∧
       a ∣ 2048000 ∧ 48000 ≤ a ∧
       ∀ d, d ∣ 2048000 → 48000 ≤ d → a ≤ d) :=
  C6_rate_selection [1024000, 2048000] 1600000 2048000 48000
    ⟨2048000, by decide, by decide⟩ (by decide) (by decide)

/-- C6 counterexample: with `rfSampleRate = 2048000` and `AUDIO_SAMPLERATE =
48000` (not a divisor), the code picks the audio rate 51200, which is
GREATER than `AUDIO_SAMPLERATE` — so it is not "the largest divisor of
rfSampleRate that is no greater than AUDIO_SAMPLERATE" (that divisor is
40960). -/
theorem C6_audio_rate_counterexample :
    (2048000 : Nat) % 48000 ≠ 0 ∧
    selectAudioSampleRate 2048000 48000 = some 51200 ∧
    ¬ (51200 : Nat) ≤ 48000 ∧
    (40960 : Nat) ∣ 2048000 ∧ (40960 : Nat) ≤ 48000 := by
  refine ⟨by decide, ?_, by decide, by decide, by decide⟩
  decide

/-! ### Receiver_SOAPY.getSampleRates (Receiver.py lines 211-249) -/

/-- The inner loop of the `_factors` helper of `Receiver_SOAPY.getSampleRates`
(Receiver.py lines 231-233): `while i % n == 0: factors.append(n); i //= n`.
It divides `n` out of `i` completely — the outer `n ** 2 <= i` guard is NOT
re-checked between divisions — returning the appended factors and the reduced
`i`.  The `2 ≤ n ∧ 0 < i` conjuncts are the loop's invariants (the trial
counter starts at 2 and only grows; `_factors` raises for `i <= 0` and
division by a divisor keeps `i` positive), added only to make the recursion
terminate: on every reachable call they hold, leaving Python's
`i % n == 0`. -/
def pyDivideOut (n i : Nat) : List Nat × Nat :=
  if h : 2 ≤ n ∧ 0 < i ∧ i % n = 0 then
    (n :: (pyDivideOut n (i / n)).1, (pyDivideOut n (i / n)).2)
  else ([], i)
termination_by i
decreasing_by
  all_goals exact Nat.div_lt_self h.2.1 (by omega)

theorem pyDivideOut_eq_cons {n i : Nat} (h : 2 ≤ n ∧ 0 < i ∧ i % n = 0) :
    pyDivideOut n i
      = (n :: (pyDivideOut n (i / n)).1, (pyDivideOut n (i / n)).2) := by
  rw [pyDivideOut, dif_pos h]

theorem pyDivideOut_eq_nil {n i : Nat} (h : ¬ (2 ≤ n ∧ 0 < i ∧ i % n = 0)) :
    pyDivideOut n i = ([], i) := by
  rw [pyDivideOut, dif_neg h]

theorem pyDivideOut_snd_le (n i : Nat) : (pyDivideOut n i).2 ≤ i := by
  induction i using pyDivideOut.induct n with
  | case1 i h ih =>
      rw [pyDivideOut_eq_cons h]
      exact le_trans ih (Nat.div_le_self i n)
  | case2 i h =>
      rw [pyDivideOut_eq_nil h]

/-- The outer loop of `_factors` (Receiver.py lines 228-236):
`n = 2; while n ** 2 <= i: <divide n out of i fully>; n += 1;
return factors`.  A remaining cofactor `i > 1` when the outer guard fails (a
prime above the trial bound of the REDUCED value) is NOT appended.  The
`2 ≤ n` guard encodes that the Python counter starts at 2 and only
increments; `pyFactors` below is the only entry point. -/
def pyFactorsAux (n i : Nat) : List Nat :=
  if h : 2 ≤ n ∧ n * n ≤ i then
    (pyDivideOut n i).1 ++ pyFactorsAux (n + 1) (pyDivideOut n i).2
  else []
termination_by i + 1 - n
decreasing_by
  have h1 : (pyDivideOut n i).2 ≤ i := pyDivideOut_snd_le n i
  have h2 : n ≤ n * n := Nat.le_mul_of_pos_left n (by omega)
  have h3 : n ≤ i := le_trans h2 h.2
  omega

/-- `_factors(i)`: the trial counter starts at 2. -/
def pyFactors (i : Nat) : List Nat := pyFactorsAux 2 i

theorem pyFactorsAux_eq_div {n i : Nat} (h : 2 ≤ n ∧ n * n ≤ i) :
    pyFactorsAux n i
      = (pyDivideOut n i).1 ++ pyFactorsAux (n + 1) (pyDivideOut n i).2 := by
  rw [pyFactorsAux, dif_pos h]

theorem pyFactorsAux_eq_nil {n i : Nat} (h : ¬ (2 ≤ n ∧ n * n ≤ i)) :
    pyFactorsAux n i = [] := by
  rw [pyFactorsAux, dif_neg h]

/-- The inner loop peels the canonical factorisation one `n` at a time:
provided `i` has no prime factor below `n`, the factorisation of `i` is the
appended run of `n`s followed by the factorisation of the reduced value,
which is positive, keeps having no prime factor below `n`, and is no longer
divisible by `n`. -/
theorem pyDivideOut_primeFactorsList :
    ∀ (n i : Nat), 2 ≤ n → 0 < i →
      (∀ p, Nat.Prime p → p ∣ i → n ≤ p) →
      Nat.primeFactorsList i
          = (pyDivideOut n i).1 ++ Nat.primeFactorsList (pyDivideOut n i).2
        ∧ 0 < (pyDivideOut n i).2
        ∧ (∀ p, Nat.Prime p → p ∣ (pyDivideOut n i).2 → n ≤ p)
        ∧ ¬ n ∣ (pyDivideOut n i).2 := by
  intro n i
  induction i using pyDivideOut.induct n with
  | case1 i h ih =>
    intro hn hi hmin
    have hndvd : n ∣ i := Nat.dvd_of_mod_eq_zero h.2.2
    have hnp : Nat.Prime n := by
      have hd : n.minFac ∣ i := (Nat.minFac_dvd n).trans hndvd
      have hge : n ≤ n.minFac := hmin _ (Nat.minFac_prime (by omega)) hd
      have hle : n.minFac ≤ n := Nat.minFac_le (by omega)
      have heqm : n.minFac = n := le_antisymm hle hge
      rw [← heqm]
      exact Nat.minFac_prime (by omega)
    have hni : n ≤ i := Nat.le_of_dvd hi hndvd
    have hi2 : 2 ≤ i := le_trans hn hni
    have hminfac : i.minFac = n :=
      le_antisymm (Nat.minFac_le_of_dvd hnp.two_le hndvd)
        (hmin _ (Nat.minFac_prime (by omega)) (Nat.minFac_dvd i))
    have hq : 0 < i / n := Nat.div_pos hni (by omega)
    have hqd : i / n ∣ i := Nat.div_dvd_of_dvd hndvd
    obtain ⟨heq, hpos, hinv, hnd⟩ := ih hn hq
      (fun p hp hpd => hmin p hp (hpd.trans hqd))
    refine ⟨?_, ?_, ?_, ?_⟩
    · obtain ⟨k, rfl⟩ : ∃ k, i = k + 2 := ⟨i - 2, by omega⟩
      rw [Nat.primeFactorsList_add_two, hminfac, heq, pyDivideOut_eq_cons h]
      simp
    · rw [pyDivideOut_eq_cons h]
      exact hpos
    · rw [pyDivideOut_eq_cons h]
      exact hinv
    · rw [pyDivideOut_eq_cons h]
      exact hnd
  | case2 i h =>
    intro hn hi hmin
    rw [pyDivideOut_eq_nil h]
    refine ⟨by simp, hi, hmin, ?_⟩
    intro hdvd
    exact h ⟨hn, hi, Nat.mod_eq_zero_of_dvd hdvd⟩

/-- The trial division of `_factors` produces the canonical prime
factorisation of `i` except for at most one trailing prime (the cofactor
left when the outer loop exits), provided `i` has no prime factor below the
counter. -/
theorem pyFactorsAux_primeFactorsList :
    ∀ (n i : Nat), 2 ≤ n → 0 < i →
      (∀ p, Nat.Prime p → p ∣ i → n ≤ p) →
      ∃ t, Nat.primeFactorsList i = pyFactorsAux n i ++ t ∧ t.length ≤ 1 := by
  intro n i
  induction n, i using pyFactorsAux.induct with
  | case1 n i h ih =>
    intro hn hi hmin
    obtain ⟨heq, hpos, hinv, hnd⟩ :=
      pyDivideOut_primeFactorsList n i hn hi hmin
    have hinv' : ∀ p, Nat.Prime p → p ∣ (pyDivideOut n i).2 → n + 1 ≤ p := by
      intro p hp hpd
      have hge := hinv p hp hpd
      rcases Nat.lt_or_ge n p with hlt | hle
      · omega
      · exfalso
        have : p = n := by omega
        subst this
        exact hnd hpd
    obtain ⟨t, ht, htl⟩ := ih (by omega) hpos hinv'
    refine ⟨t, ?_, htl⟩
    rw [pyFactorsAux_eq_div h, heq, ht]
    simp [List.append_assoc]
  | case2 n i h =>
    intro hn hi hmin
    rw [pyFactorsAux_eq_nil h]
    rcases Nat.lt_or_ge i 2 with hi2 | hi2
    · have : i = 1 := by omega
      subst this
      exact ⟨[], by simp [Nat.primeFactorsList_one], by simp⟩
    · have hsq : i < n * n := by
        rcases Nat.lt_or_ge i (n * n) with hlt | hge
        · exact hlt
        · exact absurd ⟨hn, hge⟩ h
      have hip : Nat.Prime i := by
        by_contra hnp
        have hle : i.minFac ^ 2 ≤ i := Nat.minFac_sq_le_self (by omega) hnp
        have hge : n ≤ i.minFac :=
          hmin _ (Nat.minFac_prime (by omega)) (Nat.minFac_dvd i)
        have : n * n ≤ i.minFac * i.minFac := Nat.mul_le_mul hge hge
        rw [Nat.pow_two] at hle
        omega
      exact ⟨[i], by simp [Nat.primeFactorsList_prime hip], by simp⟩

theorem pyFactors_primeFactorsList (i : Nat) (hi : 0 < i) :
    ∃ t, Nat.primeFactorsList i = pyFactors i ++ t ∧ t.length ≤ 1 :=
  pyFactorsAux_primeFactorsList 2 i (le_refl 2) hi (fun _ hp _ => hp.two_le)

/-- `Receiver_SOAPY.getSampleRates` preferred-rate filtering (Receiver.py
lines 240-248): keep the rates below `MAX_RF_SAMPLERATE` whose trial-division
factor count is at least 4 and that divide evenly by the audio rate; if any
survive, only those are advertised.  `MAX_RF_SAMPLERATE` and
`AUDIO_SAMPLERATE` are parameters (`const.py` is not staged); the Python sets
are modelled by lists, membership being all the claims use. -/
def getSampleRatesSOAPY (rates : List Nat) (MAX_RF AUDIO : Nat) : List Nat :=
  let preferredRates := rates.filter
    (fun rate => rate < MAX_RF && 4 ≤ (pyFactors rate).length && rate % AUDIO = 0)
  if preferredRates.isEmpty then rates else preferredRates

/-- C9's claim modelled on its own words: at least 4 prime factors counted
with multiplicity, an exact multiple of the audio rate, and no
`MAX_RF_SAMPLERATE` bound. -/
def getSampleRatesClaimModel (rates : List Nat) ( AUDIO : Nat) : List Nat :=
  let preferred := rates.filter
    (fun rate => 4 ≤ (Nat.primeFactorsList rate).length && rate % AUDIO = 0)
  if preferred.isEmpty then rates else preferred

/-- C9 (amended): the preferred set is the discovered rates that are below
`MAX_RF_SAMPLERATE`, divide evenly by the audio rate, and whose
trial-division factor count — the true prime-factor count with multiplicity
minus a possibly-dropped final prime cofactor — is at least 4; exactly the
preferred rates are advertised when any exist, otherwise all discovered
rates. -/
theorem C9_preferred_rates (rates : List Nat) (MAX_RF AUDIO : Nat)
    (hpos : ∀ r ∈ rates, 0 < r) :
    (∀ r ∈ rates, ∃ t, Nat.primeFactorsList r = pyFactors r ++ t ∧
        t.length ≤ 1 ∧ ∀ p ∈ t, Nat.Prime p) ∧
    ((∃ r ∈ rates, r < MAX_RF ∧ 4 ≤ (pyFactors r).length ∧ AUDIO ∣ r) →
      ∀ x, x ∈ getSampleRatesSOAPY rates MAX_RF AUDIO ↔
        x ∈ rates ∧ x < MAX_RF ∧ 4 ≤ (pyFactors x).length ∧ AUDIO ∣ x) ∧
    ((∀ r ∈ rates, ¬ (r < MAX_RF ∧ 4 ≤ (pyFactors r).length ∧ AUDIO ∣ r)) →
      getSampleRatesSOAPY rates MAX_RF AUDIO = rates) := by
  refine ⟨?_, ?_, ?_⟩
  · intro r hr
    obtain ⟨t, ht, htl⟩ := pyFactors_primeFactorsList r (hpos r hr)
    refine ⟨t, ht, htl, ?_⟩
    intro p hp
    have : p ∈ Nat.primeFactorsList r := by
      rw [ht]
      exact List.mem_append_right _ hp
    exact Nat.prime_of_mem_primeFactorsList this
  · rintro ⟨r, hr, hrp⟩ x
    have hne : rates.filter (fun rate =>
        rate < MAX_RF && 4 ≤ (pyFactors rate).length && rate % AUDIO = 0) ≠ [] := by
      intro hnil
      have := List.filter_eq_nil_iff.mp hnil r hr
      simp only [Bool.and_eq_true, decide_eq_true_eq] at this
      exact this ⟨⟨hrp.1, hrp.2.1⟩, Nat.mod_eq_zero_of_dvd hrp.2.2⟩
    simp only [getSampleRatesSOAPY, List.isEmpty_iff, if_neg hne, List.mem_filter,
      Bool.and_eq_true, decide_eq_true_eq]
    constructor
    · rintro ⟨hx, ⟨h1, h2⟩, h3⟩
      exact ⟨hx, h1, h2, Nat.dvd_of_mod_eq_zero h3⟩
    · rintro ⟨hx, h1, h2, h3⟩
      exact ⟨hx, ⟨h1, h2⟩, Nat.mod_eq_zero_of_dvd h3⟩
  · intro hall
    have hnil : (rates.filter (fun rate =>
        rate < MAX_RF && 4 ≤ (pyFactors rate).length && rate % AUDIO = 0)) = [] := by
      rw [List.filter_eq_nil_iff]
      intro r hr
      simp only [Bool.and_eq_true, decide_eq_true_eq]
      rintro ⟨⟨h1, h2⟩, h3⟩
      exact hall r hr ⟨h1, h2, Nat.dvd_of_mod_eq_zero h3⟩
    simp [getSampleRatesSOAPY, hnil]

/-- C9 witness: rates {48000, 6}, `MAX_RF = 1000000`, audio rate 1:
48000 = 2^7·3·5^3 has trial count 11 ≥ 4, so only it is advertised. -/
theorem C9_preferred_rates_witness :
    (∀ r ∈ [48000, 6], ∃ t, Nat.primeFactorsList r = pyFactors r ++ t ∧
        t.length ≤ 1 ∧ ∀ p ∈ t, Nat.Prime p) ∧
    ((∃ r ∈ [48000, 6], r < 1000000 ∧ 4 ≤ (pyFactors r).length ∧ 1 ∣ r) →
      ∀ x, x ∈ getSampleRatesSOAPY [48000, 6] 1000000 1 ↔
        x ∈ [48000, 6] ∧ x < 1000000 ∧ 4 ≤ (pyFactors x).length ∧ 1 ∣ x) ∧
    ((∀ r ∈ [48000, 6], ¬ (r < 1000000 ∧ 4 ≤ (pyFactors r).length ∧ 1 ∣ r)) →
      getSampleRatesSOAPY [48000, 6] 1000000 1 = [48000, 6]) :=
  C9_preferred_rates [48000, 6] 1000000 1 (by decide)

theorem pyFactors_24 : pyFactors 24 = [2, 2, 2] := by
  have h3 : pyDivideOut 2 3 = ([], 3) := pyDivideOut_eq_nil (by norm_num)
  have h6 : pyDivideOut 2 6 = ([2], 3) := by
    rw [pyDivideOut_eq_cons (by norm_num)]
    norm_num [h3]
  have h12 : pyDivideOut 2 12 = ([2, 2], 3) := by
    rw [pyDivideOut_eq_cons (by norm_num)]
    norm_num [h6]
  have h24 : pyDivideOut 2 24 = ([2, 2, 2], 3) := by
    rw [pyDivideOut_eq_cons (by norm_num)]
    norm_num [h12]
  rw [pyFactors, pyFactorsAux_eq_div (by norm_num), h24,
    pyFactorsAux_eq_nil (by norm_num)]
  simp

theorem pyFactors_7 : pyFactors 7 = [] := by
  have h7 : pyDivideOut 2 7 = ([], 7) := pyDivideOut_eq_nil (by norm_num)
  rw [pyFactors, pyFactorsAux_eq_div (by norm_num), h7,
    pyFactorsAux_eq_nil (by norm_num)]
  simp

/-- C9 counterexample: discovered rates {24, 32, 7} with
`MAX_RF_SAMPLERATE = 30` and audio rate 1.  24 = 2·2·2·3 has four prime
factors and 32 = 2^5 has five, so the claim's preferred set is {24, 32} and
the claim advertises exactly it; the code counts only [2,2,2] for 24 (the
cofactor 3 is dropped by `_factors`) and rejects 32 as not below
`MAX_RF_SAMPLERATE`, finds no preferred rate, and advertises all three —
in particular 7 is advertised, which the claim forbids. -/
theorem C9_counterexample :
    getSampleRatesSOAPY [24, 32, 7] 30 1 = [24, 32, 7] ∧
    getSampleRatesClaimModel [24, 32, 7] 1 = [24, 32] ∧
    (7 ∈ getSampleRatesSOAPY [24, 32, 7] 30 1) ∧
    7 ∉ getSampleRatesClaimModel [24, 32, 7] 1 := by
  have h24 : (Nat.primeFactorsList 24).length = 4 := by
    have hperm : ([2, 2, 2, 3] : List ℕ).Perm (Nat.primeFactorsList 24) :=
      Nat.primeFactorsList_unique (by norm_num)
        (by intro p hp; fin_cases hp <;> norm_num)
    simpa using hperm.length_eq.symm
  have h32 : (Nat.primeFactorsList 32).length = 5 := by
    have hperm : ([2, 2, 2, 2, 2] : List ℕ).Perm (Nat.primeFactorsList 32) :=
      Nat.primeFactorsList_unique (by norm_num)
        (by intro p hp; fin_cases hp <;> norm_num)
    simpa using hperm.length_eq.symm
  have h7 : (Nat.primeFactorsList 7).length = 1 := by
    rw [Nat.primeFactorsList_prime (by norm_num)]
    simp
  have hcode : getSampleRatesSOAPY [24, 32, 7] 30 1 = [24, 32, 7] := by
    rw [getSampleRatesSOAPY]
    simp [List.filter, pyFactors_24, pyFactors_7, pyFactorsAux_eq_nil]
  have hclaim : getSampleRatesClaimModel [24, 32, 7] 1 = [24, 32] := by
    rw [getSampleRatesClaimModel]
    simp [List.filter, h24, h32, h7]
  exact ⟨hcode, hclaim, by rw [hcode]; simp, by rw [hclaim]; simp⟩

/-! ### AudioServer.run mixing (AudioServer.py lines 205-249) -/

/-- Python `int(x)` applied to a float: truncation toward zero. -/
def pyInt (q : ℚ) : Int := if 0 ≤ q then ⌊q⌋ else ⌈q⌉

/-- The per-sample output conversion of `AudioServer.run` (AudioServer.py
lines 226-231): `i_out = int(outSum * 32767.0)`, then `if i_out > 32767:
i_out = 32767 elif i_out < -32767: i_out = -32767`. -/
def toShort (outSum : ℚ) : Int :=
  let i_out := pyInt (outSum * 32767)
  if 32767 < i_out then 32767
  else if i_out < -32767 then -32767
  else i_out

/-- Popping the front of a mixer deque; an empty deque stays empty and
contributes 0 to the sum (AudioServer.py lines 219-224). -/
def popFront : List ℚ → ℚ × List ℚ
  | [] => (0, [])
  | x :: rest => (x, rest)

/-- One iteration of the per-sample mixing loop of `AudioServer.run`
(AudioServer.py lines 218-233): sum one sample popped from each per-receiver
deque, convert to a short. -/
def mixOneSample (mixBuffers : List (List ℚ)) : Int × List (List ℚ) :=
  (toShort ((mixBuffers.map (fun b => (popFront b).1)).sum),
   mixBuffers.map (fun b => (popFront b).2))

/-- C7's conversion as the claim words it: clamp the sum to [-1, 1], then
`round(x * 32767)`. -/
def clampUnit (x : ℚ) : ℚ := max (-1) (min 1 x)

def mixClaimModel (x : ℚ) : Int := round (clampUnit x * 32767)

theorem pyInt_intCast (z : ℤ) : pyInt (z : ℚ) = z := by
  rw [pyInt]
  split
  · exact Int.floor_intCast z
  · exact Int.ceil_intCast z

theorem toShort_eq_pyInt_clamp (x : ℚ) :
    toShort x = pyInt (clampUnit x * 32767) := by
  rcases le_or_lt 1 x with h1 | h1
  · have hc : clampUnit x = 1 := by
      rw [clampUnit, min_eq_left h1, max_eq_right (by norm_num : (-1:ℚ) ≤ 1)]
    have hge : (32767 : ℤ) ≤ pyInt (x * 32767) := by
      rw [pyInt, if_pos (by positivity)]
      rw [Int.le_floor]
      push_cast
      nlinarith
    have hL : toShort x = 32767 := by
      simp only [toShort]
      rcases lt_or_eq_of_le hge with h | h
      · rw [if_pos h]
      · rw [if_neg (by omega), if_neg (by omega)]
        omega
    rw [hL, hc, one_mul, show ((32767:ℚ)) = ((32767:ℤ):ℚ) by norm_num,
      pyInt_intCast]
  · rcases le_or_lt x (-1) with h2 | h2
    · have hc : clampUnit x = -1 := by
        rw [clampUnit, min_eq_right (le_trans h2 (by norm_num)),
          max_eq_left h2]
      have hneg : ¬ (0 : ℚ) ≤ x * 32767 := by nlinarith
      have hle : pyInt (x * 32767) ≤ -32767 := by
        rw [pyInt, if_neg hneg, Int.ceil_le]
        push_cast
        nlinarith
      have hL : toShort x = -32767 := by
        simp only [toShort]
        rw [if_neg (by omega)]
        rcases lt_or_eq_of_le hle with h | h
        · rw [if_pos h]
        · rw [if_neg (by omega)]
          omega
      rw [hL, hc, show ((-1:ℚ) * 32767) = (((-32767:ℤ)):ℚ) by norm_num,
        pyInt_intCast]
    · have hc : clampUnit x = x := by
        rw [clampUnit, min_eq_right (le_of_lt h1), max_eq_right (le_of_lt h2)]
      rw [hc]
      have hub : pyInt (x * 32767) < 32768 := by
        rw [pyInt]
        split
        · rw [show (32768:ℤ) = 32767 + 1 by norm_num]
          rw [Int.floor_lt]
          push_cast
          nlinarith
        · have : pyInt (x * 32767) = ⌈x * 32767⌉ := by
            rw [pyInt, if_neg (by assumption)]
          calc ⌈x * 32767⌉ ≤ 0 := by
                rw [Int.ceil_le]
                push_cast
                nlinarith [le_of_not_le (by assumption : ¬ (0:ℚ) ≤ x * 32767)]
            _ < 32768 := by omega
      have hlb : -32767 < pyInt (x * 32767) := by
        rw [pyInt]
        split
        · calc (-32767 : ℤ) < 0 := by omega
            _ ≤ ⌊x * 32767⌋ := by
              rw [Int.le_floor]
              push_cast
              exact le_of_not_lt (fun hcon => (by assumption : (0:ℚ) ≤ x * 32767).not_lt hcon)
        · rw [Int.lt_ceil]
          push_cast
          nlinarith
      simp only [toShort]
      rw [if_neg (by omega), if_neg (by omega)]

/-- C7 (amended): each mixer output sample is the sum of one sample popped
from each per-receiver deque (an empty deque contributing 0), multiplied by
32767, truncated toward zero (Python `int`), and saturated at ±32767 — which
equals the truncation of the clamped sum times 32767; the saturating
scenarios of the claim hold, but the conversion is truncation, not
rounding. -/
theorem C7_mixer_conversion :
    (∀ x : ℚ, toShort x = pyInt (clampUnit x * 32767)) ∧
    (∀ x : ℚ, -32767 ≤ toShort x ∧ toShort x ≤ 32767) ∧
    mixOneSample [[7/10], [6/10]] = (32767, [[], []]) ∧
    mixOneSample [[-9/10], [-5/10]] = (-32767, [[], []]) := by
  refine ⟨toShort_eq_pyInt_clamp, ?_, ?_, ?_⟩
  · intro x
    simp only [toShort]
    split
    · omega
    · split
      · omega
      · omega
  · have hsum : (([[7/10], [6/10]] : List (List ℚ)).map
        (fun b => (popFront b).1)).sum = 13/10 := by
      simp [popFront]
      norm_num
    have hfloor : pyInt ((13 : ℚ)/10 * 32767) = 42597 := by
      rw [pyInt, if_pos (by norm_num)]
      rw [Int.floor_eq_iff]
      constructor <;> norm_num
    have hts : toShort (13/10) = 32767 := by
      simp only [toShort, hfloor]
      rw [if_pos (by omega)]
    simp only [mixOneSample, hsum, hts]
    simp [popFront]
  · have hsum : (([[-9/10], [-5/10]] : List (List ℚ)).map
        (fun b => (popFront b).1)).sum = -14/10 := by
      simp [popFront]
      norm_num
    have hceil : pyInt ((-14 : ℚ)/10 * 32767) = -45873 := by
      rw [pyInt, if_neg (by norm_num)]
      rw [Int.ceil_eq_iff]
      constructor <;> norm_num
    have hts : toShort (-14/10) = -32767 := by
      simp only [toShort, hceil]
      rw [if_neg (by omega), if_pos (by omega)]
    simp only [mixOneSample, hsum, hts]
    simp [popFront]

/-- C7 counterexample: a single input sample 0.5.  The code truncates:
`int(0.5 * 32767) = int(16383.5) = 16383`, while the claim's
`round(x * 32767)` gives 16384. -/
theorem C7_counterexample :
    mixOneSample [[1/2]] = (16383, [[]]) ∧
    mixClaimModel (1/2) = 16384 ∧
    (16383 : ℤ) ≠ 16384 := by
  refine ⟨?_, ?_, by omega⟩
  · have hsum : (([[1/2]] : List (List ℚ)).map
        (fun b => (popFront b).1)).sum = 1/2 := by
      simp [popFront]
    have hfloor : pyInt ((1 : ℚ)/2 * 32767) = 16383 := by
      rw [pyInt, if_pos (by norm_num)]
      rw [Int.floor_eq_iff]
      constructor <;> norm_num
    have hts : toShort (1/2) = 16383 := by
      simp only [toShort, hfloor]
      rw [if_neg (by omega), if_neg (by omega)]
    simp only [mixOneSample, hsum, hts]
    simp [popFront]
  · have hc : clampUnit (1/2) = 1/2 := by
      rw [clampUnit, min_eq_right (by norm_num), max_eq_right (by norm_num)]
    rw [mixClaimModel, hc, round_eq]
    rw [show ((1:ℚ)/2 * 32767 + 1/2) = ((16384:ℤ):ℚ) by norm_num]
    exact Int.floor_intCast _

/-! ### HighPerformanceCircularBuffer.write (hpSharedMem.py lines 53-93) -/

variable {α : Type}

/-- The shared state of a `HighPerformanceCircularBuffer`: the backing array
(`circularArray`), head and tail index cells, and the producer-side counter.
The item type is a parameter, as `itemDtype` is in Python. -/
structure HPCB (α : Type) where
  circularArray : List α
  headValue : Nat
  tailValue : Nat
  totalItemsWrote : Nat
deriving DecidableEq

/-- `bufferItemLen = shmBuffer.size // itemDtype.itemsize` (hpSharedMem.py
line 48): the length of the backing array. -/
def HPCB.bufferItemLen (cb : HPCB α) : Nat := cb.circularArray.length

/-- The `while itemIdx < numItems` loop of
`HighPerformanceCircularBuffer.write` (hpSharedMem.py lines 60-91), one
recursive call per pass; `remaining` is `items[itemIdx:]` and `written` is
`itemIdx`.  `none` stands for the two non-returning outcomes: the `raise`
when the head would pass the end of the buffer, and the 1 ms sleep-and-retry
loop spinning forever when `blockOnFull` holds and the buffer stays full (no
consumer runs inside the call).  `fuel` only feeds the termination checker;
`write` passes `items.length`, enough because every pass consumes an item or
returns.  Returns (return value, array, head). -/
def writeLoop (bufferItemLen tailIdx : Nat) (blockOnFull : Bool) :
    Nat → List α → Nat → List α → Nat → Option (Nat × List α × Nat)
  | _, buf, headIdx, [], written => some (written, buf, headIdx)
  | 0, _, _, _ :: _, _ => none
  | fuel + 1, buf, headIdx, remaining@(_ :: _), written =>
    let spaceLeft := if headIdx < tailIdx then tailIdx - headIdx - 1
      else bufferItemLen - headIdx - (if tailIdx = 0 then 1 else 0)
    let numToWrite := min remaining.length spaceLeft
    if numToWrite = 0 then
      if blockOnFull then none else some (written, buf, headIdx)
    else
      let buf' := buf.take headIdx ++ remaining.take numToWrite ++
        buf.drop (headIdx + numToWrite)
      if bufferItemLen < headIdx + numToWrite then none
      else writeLoop bufferItemLen tailIdx blockOnFull fuel buf'
        (if bufferItemLen ≤ headIdx + numToWrite then 0
         else headIdx + numToWrite)
        (remaining.drop numToWrite) (written + numToWrite)

/-- `HighPerformanceCircularBuffer.write(items, blockOnFull)` (hpSharedMem.py
lines 53-93).  Per-pass `totalItemsWrote` increments sum to the returned
count; `tailValue` is only ever read (the consumer owns it). -/
def HPCB.write (cb : HPCB α) (items : List α) (blockOnFull : Bool) :
    Option (Nat × HPCB α) :=
  match writeLoop cb.bufferItemLen cb.tailValue blockOnFull items.length
      cb.circularArray cb.headValue items 0 with
  | none => none
  | some (n, buf', head') =>
    some (n, ⟨buf', head', cb.tailValue, cb.totalItemsWrote + n⟩)

/-- The backing array read circularly starting at slot `k`. -/
def rotateAt (k : Nat) (l : List α) : List α := l.drop k ++ l.take k

theorem rotateAt_length (k : Nat) (l : List α) :
    (rotateAt k l).length = l.length := by
  simp [rotateAt]
  omega

theorem rotateAt_zero (l : List α) : rotateAt 0 l = l := by
  simp [rotateAt]

theorem rotateAt_add {C : Nat} (l : List α) (h k : Nat)
    (hl : l.length = C) (hk : h + k ≤ C) :
    rotateAt k (rotateAt h l) = rotateAt ((h + k) % C) l := by
  have hdl : (l.drop h).length = C - h := by simp [hl]
  rcases lt_or_eq_of_le hk with hlt | heq
  · rw [Nat.mod_eq_of_lt hlt]
    show (l.drop h ++ l.take h).drop k ++ (l.drop h ++ l.take h).take k
        = l.drop (h + k) ++ l.take (h + k)
    rw [List.drop_append_of_le_length (by omega),
      List.take_append_of_le_length (by omega),
      List.drop_drop, List.take_add, List.append_assoc]
  · rw [heq, Nat.mod_self, rotateAt_zero]
    show (l.drop h ++ l.take h).drop k ++ (l.drop h ++ l.take h).take k = l
    rw [show k = (l.drop h).length by omega, List.drop_left, List.take_left,
      List.take_append_drop]

theorem rotateAt_cancel {C : Nat} (l : List α) (k : Nat)
    (hl : l.length = C) (hk : k ≤ C) :
    rotateAt (C - k) (rotateAt k l) = l := by
  have h1 := rotateAt_add l k (C - k) hl (by omega)
  rw [show k + (C - k) = C by omega, Nat.mod_self, rotateAt_zero] at h1
  exact h1

theorem rotateAt_inj {C : Nat} (l₁ l₂ : List α) (k : Nat)
    (h₁ : l₁.length = C) (h₂ : l₂.length = C) (hk : k ≤ C)
    (heq : rotateAt k l₁ = rotateAt k l₂) : l₁ = l₂ := by
  have := congrArg (rotateAt (C - k)) heq
  rwa [rotateAt_cancel l₁ k h₁ hk, rotateAt_cancel l₂ k h₂ hk] at this

/-- Writing a contiguous segment at `h` (the Python slice assignment
`circularArray[headIdx : headIdx + numToWrite] = ...`), seen through the
rotation at `h`: the segment lands at the front. -/
theorem rotateAt_writeSeg {C : Nat} (buf seg : List α) (h : Nat)
    (hl : buf.length = C) (hseg : h + seg.length ≤ C) :
    rotateAt h (buf.take h ++ seg ++ buf.drop (h + seg.length)) =
      seg ++ (rotateAt h buf).drop seg.length := by
  have hth : (buf.take h).length = h := by simp [hl]; omega
  have hdl : (buf.drop h).length = C - h := by simp [hl]
  show (buf.take h ++ seg ++ buf.drop (h + seg.length)).drop h ++
      (buf.take h ++ seg ++ buf.drop (h + seg.length)).take h =
    seg ++ (buf.drop h ++ buf.take h).drop seg.length
  rw [List.append_assoc]
  rw [List.drop_append_of_le_length (by omega),
    List.take_append_of_le_length (by omega)]
  rw [List.drop_eq_nil_of_le (by omega), List.nil_append]
  rw [show (buf.take h).take h = buf.take h from by
    rw [List.take_take, Nat.min_self]]
  rw [List.drop_append_of_le_length (by omega), List.drop_drop,
    List.append_assoc]

theorem rotateAt_append_left (A B : List α) (k : Nat) (hk : A.length = k) :
    rotateAt k (A ++ B) = B ++ A := by
  subst hk
  show (A ++ B).drop A.length ++ (A ++ B).take A.length = B ++ A
  rw [List.drop_left, List.take_left]

/-- Two consecutive segment writes — the first at `h`, the second at the
advanced (possibly wrapped) head — seen from the original head: the written
prefix grows. -/
theorem rotateAt_combine {C : Nat} (buf buf' rem : List α) (h n₀ n₁ : Nat)
    (hbuf : buf.length = C) (hbuf' : buf'.length = C) (hh : h < C)
    (hn₀C : h + n₀ ≤ C) (hnC : n₀ + n₁ ≤ C) (hnr : n₀ + n₁ ≤ rem.length)
    (hrot : rotateAt ((h + n₀) % C) buf' =
      (rem.drop n₀).take n₁ ++
        (rotateAt ((h + n₀) % C)
          (buf.take h ++ rem.take n₀ ++ buf.drop (h + n₀))).drop n₁) :
    rotateAt h buf' = rem.take (n₀ + n₁) ++ (rotateAt h buf).drop (n₀ + n₁) := by
  have hseglen : (rem.take n₀).length = n₀ := by simp; omega
  have hbuf₁ : (buf.take h ++ rem.take n₀ ++ buf.drop (h + n₀)).length = C := by
    simp
    omega
  have hRlen : (rotateAt h buf).length = C := by rw [rotateAt_length, hbuf]
  have hmid : rotateAt ((h + n₀) % C)
      (buf.take h ++ rem.take n₀ ++ buf.drop (h + n₀)) =
      (rotateAt h buf).drop n₀ ++ rem.take n₀ := by
    rw [← rotateAt_add _ h n₀ hbuf₁ hn₀C]
    have hws := rotateAt_writeSeg (C := C) buf (rem.take n₀) h hbuf
      (by rw [hseglen]; omega)
    rw [hseglen] at hws
    rw [hws]
    exact rotateAt_append_left (rem.take n₀) ((rotateAt h buf).drop n₀) n₀ hseglen
  have hTlen : (rem.take (n₀ + n₁) ++ (rotateAt h buf).drop (n₀ + n₁)).length
      = C := by
    simp [hRlen]
    omega
  apply rotateAt_inj (C := C) _ _ n₀ (by rw [rotateAt_length, hbuf'])
    hTlen (by omega)
  rw [rotateAt_add buf' h n₀ hbuf' hn₀C, hrot, hmid]
  -- expand the rotation of the target list
  have htake : ((rem.take (n₀ + n₁) ++ (rotateAt h buf).drop (n₀ + n₁))).take n₀
      = rem.take n₀ := by
    rw [List.take_append_of_le_length (by simp; omega), List.take_take]
    congr 1
    omega
  have hdrop : ((rem.take (n₀ + n₁) ++ (rotateAt h buf).drop (n₀ + n₁))).drop n₀
      = (rem.drop n₀).take n₁ ++ (rotateAt h buf).drop (n₀ + n₁) := by
    rw [List.drop_append_of_le_length (by simp; omega), List.drop_take]
    congr 2
    omega
  show _ = (rem.take (n₀ + n₁) ++ (rotateAt h buf).drop (n₀ + n₁)).drop n₀ ++
      (rem.take (n₀ + n₁) ++ (rotateAt h buf).drop (n₀ + n₁)).take n₀
  rw [htake, hdrop, List.append_assoc]
  congr 1
  rw [List.drop_append_of_le_length (by simp [hRlen]; omega), List.drop_drop]

/-- The central description of `HighPerformanceCircularBuffer.write` with
`blockOnFull=False`: under the head/tail invariants it writes
`min(len(items), (tail + C - head - 1) % C)` items — all that fit before
catching up to the tail (one slot reserved), wrapping inside the call if the
free space spans the end of the buffer — advances the head by exactly that
count modulo `C`, and lays the written prefix down contiguously from the old
head (read circularly). -/
theorem writeLoop_spec {C t : Nat} (ht : t < C) :
    ∀ (fuel : Nat) (buf : List α) (h : Nat) (rem : List α) (w : Nat),
      rem.length ≤ fuel → h < C → buf.length = C →
      ∃ n buf',
        writeLoop C t false fuel buf h rem w
          = some (w + n, buf', (h + n) % C) ∧
        n = min rem.length ((t + C - h - 1) % C) ∧
        n ≤ rem.length ∧
        buf'.length = C ∧
        rotateAt h buf' = rem.take n ++ (rotateAt h buf).drop n := by
  intro fuel
  induction fuel with
  | zero =>
    intro buf h rem w hfuel hh hbuf
    have hrem : rem = [] := List.length_eq_zero.mp (by omega)
    subst hrem
    exact ⟨0, buf, by simp [writeLoop, Nat.mod_eq_of_lt hh], by simp,
      by simp, hbuf, by simp⟩
  | succ fuel ih =>
    intro buf h rem w hfuel hh hbuf
    match rem, hfuel with
    | [], _ =>
      exact ⟨0, buf, by simp [writeLoop, Nat.mod_eq_of_lt hh], by simp,
        by simp, hbuf, by simp⟩
    | r :: rest, hfuel =>
      have hstep : writeLoop C t false (fuel + 1) buf h (r :: rest) w =
          (if min (r :: rest).length
              (if h < t then t - h - 1
               else C - h - (if t = 0 then 1 else 0)) = 0
           then some (w, buf, h)
           else
             if C < h + min (r :: rest).length
                 (if h < t then t - h - 1
                  else C - h - (if t = 0 then 1 else 0)) then none
             else writeLoop C t false fuel
               (buf.take h ++ (r :: rest).take (min (r :: rest).length
                  (if h < t then t - h - 1
                   else C - h - (if t = 0 then 1 else 0))) ++
                buf.drop (h + min (r :: rest).length
                  (if h < t then t - h - 1
                   else C - h - (if t = 0 then 1 else 0))))
               (if C ≤ h + min (r :: rest).length
                   (if h < t then t - h - 1
                    else C - h - (if t = 0 then 1 else 0)) then 0
                else h + min (r :: rest).length
                  (if h < t then t - h - 1
                   else C - h - (if t = 0 then 1 else 0)))
               ((r :: rest).drop (min (r :: rest).length
                  (if h < t then t - h - 1
                   else C - h - (if t = 0 then 1 else 0))))
               (w + min (r :: rest).length
                  (if h < t then t - h - 1
                   else C - h - (if t = 0 then 1 else 0)))) := rfl
      rw [hstep]
      set sc := if h < t then t - h - 1 else C - h - (if t = 0 then 1 else 0)
        with hscdef
      set n₀ := min (r :: rest).length sc with hn₀def
      have hlen_cons : (r :: rest).length = rest.length + 1 := by simp
      -- the space formula, resolved per head/tail configuration
      have hspace : (t + C - h - 1) % C = if h < t then t - h - 1
          else t + C - h - 1 := by
        split
        · rw [show t + C - h - 1 = C + (t - h - 1) by omega, Nat.add_mod_left,
            Nat.mod_eq_of_lt (by omega)]
        · exact Nat.mod_eq_of_lt (by omega)
      have hn₀sc : n₀ ≤ sc := by rw [hn₀def]; omega
      rcases Nat.eq_zero_or_pos n₀ with h0 | h0
      · rw [if_pos h0]
        refine ⟨0, buf, ?_, ?_, by simp, hbuf, by simp⟩
        · rw [Nat.add_zero, Nat.add_zero, Nat.mod_eq_of_lt hh]
        · rw [hspace]
          have hsc0 : sc = 0 := by omega
          rw [hscdef] at hsc0
          split at hsc0 <;> rename_i hht
          · rw [if_pos hht]
            omega
          · rw [if_neg hht]
            split at hsc0 <;> rename_i ht0
            · subst ht0
              omega
            · omega
      · have hnoflow : ¬ C < h + n₀ := by
          have hsc' := hn₀sc
          rw [hscdef] at hsc'
          split at hsc' <;> rename_i hht
          · omega
          · split at hsc' <;> omega
        rw [if_neg (by omega), if_neg hnoflow]
        have hwrap : (if C ≤ h + n₀ then 0 else h + n₀) = (h + n₀) % C := by
          split
          · rw [show h + n₀ = C by omega, Nat.mod_self]
          · rw [Nat.mod_eq_of_lt (by omega)]
        have hh₁ : (h + n₀) % C < C := Nat.mod_lt _ (by omega)
        have hbuf₁ : (buf.take h ++ (r :: rest).take n₀ ++
            buf.drop (h + n₀)).length = C := by
          simp
          omega
        have hfuel₁ : ((r :: rest).drop n₀).length ≤ fuel := by
          simp
          omega
        rw [hwrap]
        obtain ⟨n₁, buf', Heq, Hn₁, Hn₁r, Hlen, Hrot⟩ :=
          ih _ ((h + n₀) % C) ((r :: rest).drop n₀) (w + n₀) hfuel₁ hh₁ hbuf₁
        simp only [List.length_drop] at Hn₁ Hn₁r
        -- resolve the inner space formula per configuration
        have Hn₁' : n₁ = min ((r :: rest).length - n₀)
            ((t + C - h - 1) % C - n₀) := by
          rw [Hn₁]
          congr 1
          have hsc' := hn₀sc
          rw [hscdef] at hsc'
          rcases Nat.lt_or_ge h t with hht | hht
          · -- h < t : the head stays below the tail, no wrap
            rw [if_pos hht] at hsc'
            have hn₀lt : h + n₀ < C := by omega
            rw [Nat.mod_eq_of_lt hn₀lt,
              show t + C - (h + n₀) - 1 = C + (t - (h + n₀) - 1) by omega,
              Nat.add_mod_left, Nat.mod_eq_of_lt (by omega), hspace,
              if_pos hht]
            omega
          · rw [if_neg (by omega)] at hsc'
            rcases Nat.eq_zero_or_pos t with ht0 | ht0
            · -- t = 0 : one slot at the very end is reserved, no wrap ever
              rw [if_pos ht0] at hsc'
              have hn₀lt : h + n₀ < C := by omega
              rw [Nat.mod_eq_of_lt hn₀lt, hspace, if_neg (by omega)]
              subst ht0
              rw [Nat.mod_eq_of_lt (by omega)]
              omega
            · -- 0 < t ≤ h : free space may span the end of the buffer
              rw [if_neg (by omega)] at hsc'
              rcases Nat.lt_or_ge (h + n₀) C with hlt | hge
              · rw [Nat.mod_eq_of_lt hlt, hspace, if_neg (by omega),
                  Nat.mod_eq_of_lt (by omega)]
                omega
              · rw [show h + n₀ = C by omega, Nat.mod_self, hspace,
                  if_neg (by omega),
                  show t + C - 0 - 1 = C + (t - 1) by omega,
                  Nat.add_mod_left, Nat.mod_eq_of_lt (by omega)]
                omega
        have hnn : n₀ + n₁ = min (r :: rest).length ((t + C - h - 1) % C) := by
          have hsp : (t + C - h - 1) % C < C := Nat.mod_lt _ (by omega)
          have hscsp : n₀ ≤ (t + C - h - 1) % C := by
            have hsc' := hn₀sc
            rw [hscdef] at hsc'
            rw [hspace]
            split at hsc' <;> rename_i hht
            · rw [if_pos hht]
              omega
            · rw [if_neg hht]
              split at hsc' <;> omega
          omega
        refine ⟨n₀ + n₁, buf', ?_, hnn, by omega, Hlen, ?_⟩
        · rw [Heq]
          have hheads : ((h + n₀) % C + n₁) % C = (h + (n₀ + n₁)) % C := by
            rw [Nat.mod_add_mod, Nat.add_assoc]
          rw [hheads, Nat.add_assoc]
        · have hnC : n₀ + n₁ ≤ C := by
            have hsp : (t + C - h - 1) % C < C := Nat.mod_lt _ (by omega)
            omega
          exact rotateAt_combine buf buf' (r :: rest) h n₀ n₁ hbuf Hlen hh
            (by omega) hnC (by omega) Hrot

/-- C2 (confirmed): with `0 ≤ head < C` and `0 ≤ tail < C`, a non-blocking
`write` stores exactly `min(len(items), (tail + C - head - 1) % C)` items —
as many as fit contiguously before the wrap point and before reaching
`tail - 1`, the pass after a wrap continuing at slot 0 (the `tail == 0` case
reserves the last slot, so at most `C - 1` items are ever buffered) — lays
them down from the old head onward (the buffer read circularly from the old
head begins with the written prefix), advances the head by exactly the
count written (wrapping `C` to 0), leaves the tail alone, returns the count,
and returns a count smaller than `len(items)` instead of waiting when space
runs out. -/
theorem C2_ring_write (cb : HPCB α) (items : List α)
    (hh : cb.headValue < cb.bufferItemLen)
    (ht : cb.tailValue < cb.bufferItemLen) :
    ∃ n cb', cb.write items false = some (n, cb') ∧
      n = min items.length
        ((cb.tailValue + cb.bufferItemLen - cb.headValue - 1) %
          cb.bufferItemLen) ∧
      n + 1 ≤ cb.bufferItemLen ∧
      ((cb.tailValue + cb.bufferItemLen - cb.headValue - 1) %
          cb.bufferItemLen < items.length → n < items.length) ∧
      cb'.headValue = (cb.headValue + n) % cb.bufferItemLen ∧
      cb'.tailValue = cb.tailValue ∧
      cb'.totalItemsWrote = cb.totalItemsWrote + n ∧
      cb'.bufferItemLen = cb.bufferItemLen ∧
      rotateAt cb.headValue cb'.circularArray =
        items.take n ++ (rotateAt cb.headValue cb.circularArray).drop n := by
  obtain ⟨n, buf', Heq, Hn, Hnr, Hlen, Hrot⟩ :=
    writeLoop_spec (C := cb.bufferItemLen) (t := cb.tailValue) ht items.length
      cb.circularArray cb.headValue items 0 (le_refl _) hh rfl
  have hC0 : 0 < cb.bufferItemLen := by omega
  have hsp : (cb.tailValue + cb.bufferItemLen - cb.headValue - 1) %
      cb.bufferItemLen < cb.bufferItemLen := Nat.mod_lt _ hC0
  refine ⟨n, ⟨buf', (cb.headValue + n) % cb.bufferItemLen, cb.tailValue,
    cb.totalItemsWrote + n⟩, ?_, Hn, by omega, by omega, rfl, rfl, rfl,
    Hlen, Hrot⟩
  rw [HPCB.write]
  rw [Heq]
  simp

/-- C2 witness (scenario S2): capacity 8, `head = tail = 0`.  Writing the
seven samples 1..7 stores them in slots 0..6 and leaves `head = 7`,
`tail = 0`; a further one-sample non-blocking write writes nothing. -/
theorem C2_ring_write_witness :
    (∃ n cb',
      HPCB.write ⟨List.replicate 8 (0 : Int), 0, 0, 0⟩ [1, 2, 3, 4, 5, 6, 7]
        false = some (n, cb') ∧
      n = 7 ∧ cb'.headValue = 7 ∧ cb'.tailValue = 0) ∧
    HPCB.write ⟨List.replicate 8 (0 : Int), 0, 0, 0⟩ [1, 2, 3, 4, 5, 6, 7]
      false = some (7, ⟨[1, 2, 3, 4, 5, 6, 7, 0], 7, 0, 7⟩) ∧
    HPCB.write ⟨[1, 2, 3, 4, 5, 6, 7, 0], 7, 0, 7⟩ [8] false
      = some (0, ⟨[1, 2, 3, 4, 5, 6, 7, 0], 7, 0, 7⟩) := by
  refine ⟨?_, by decide, by decide⟩
  obtain ⟨n, cb', Heq, Hn, _, _, Hhead, Htail, _, _, _⟩ :=
    C2_ring_write (⟨List.replicate 8 (0 : Int), 0, 0, 0⟩ : HPCB Int)
      [1, 2, 3, 4, 5, 6, 7] (by decide) (by decide)
  have hn7 : n = 7 := by rw [Hn]; decide
  refine ⟨n, cb', Heq, hn7, ?_, Htail⟩
  rw [Hhead, hn7]
  decide

/-! ### Channel configuration (Channel.py lines 122-237) -/

/-- `ChannelConfig` (Channel.py lines 122-141), with the fields the claims
touch: `id` stands in for the uuid, `freq_hz` is integral (configured
frequencies are MHz values scaled by 1e6), times are rational.  Label, mode,
gain, dwell and squelch do not enter any claim about this class. -/
structure ChannelConfig where
  id : Nat
  freq_hz : Int
  enabled : Bool
  disableUntil : Option ℚ
  mute : Bool
  solo : Option Bool
  hold : Bool
  forceActive : Bool
deriving DecidableEq

/-- A fresh `ChannelConfig(freq_hz, label)`: enabled, no disable timestamp,
unmuted, solo `None`, no hold, no force-active (Channel.py lines 135-140). -/
def mkChannelConfig (cid : Nat) (freq : Int) : ChannelConfig :=
  ⟨cid, freq, true, none, false, none, false, false⟩

/-- `ChannelConfig.enable` (Channel.py lines 142-144). -/
def ChannelConfig.enable (cc : ChannelConfig) (e : Bool) : ChannelConfig :=
  { cc with disableUntil := none, enabled := e }

/-- `ChannelConfig.disableUntil` (Channel.py lines 146-148). -/
def ChannelConfig.setDisableUntil (cc : ChannelConfig) (t : ℚ) :
    ChannelConfig :=
  { cc with disableUntil := some t, enabled := false }

/-- `ChannelConfig.isEnabled` (Channel.py lines 150-155), with its side
effect: whenever `_disableUntil` is set the call returns `False` — clearing
an expired timestamp for later calls, but still returning `False` — and
returns `_enabled` otherwise. -/
def ChannelConfig.isEnabledRun (cc : ChannelConfig) (now : ℚ) :
    Bool × ChannelConfig :=
  match cc.disableUntil with
  | some t => (false, if now > t then { cc with disableUntil := none } else cc)
  | none => (cc.enabled, cc)

/-- The value `isEnabled()` returns; it does not depend on the clock. -/
def ChannelConfig.isEnabled (cc : ChannelConfig) : Bool :=
  cc.disableUntil.isNone && cc.enabled

/-- One channel's share of `Scanner.runMaintenance` (Scanner.py lines
410-414): a channel whose `_disableUntil` has passed is re-enabled through
`_channelEnable(cc.id, True)`, which ends in `cc.enable(True)`. -/
def runMaintenanceChannel (cc : ChannelConfig) (now : ℚ) : ChannelConfig :=
  match cc.disableUntil with
  | some t => if now > t then cc.enable true else cc
  | none => cc

/-! ### Scan window configurations and the scheduler
(ScanWindow.py lines 12-23, Scanner.py lines 384-401 and 530-544) -/

/-- `ScanWindowConfig` (ScanWindow.py lines 12-23).  `id : Nat` models the
fresh uuid4: the planner below mints ids from a counter, fresh and pairwise
distinct, which is all uuid4 provides. -/
structure ScanWindowConfig where
  id : Nat
  hardwareFreq_hz : Int
  rfBandwidth : Int
  channelConfigs : List ChannelConfig
deriving DecidableEq

/-- The `targetId`/`targetTime` fold of `Scanner.getNextScanWindow`
(Scanner.py lines 388-401): walk the configured windows, skip any whose id
is a current window of some receiver (`runningWindows` is
`_receiverCurrentScanWindow.values()`, which may contain `None` entries),
keep the first window and after that any window with a strictly smaller
last-scan time (`_windowLastScan.get(id, 0)`). -/
def getNextAux (windowLastScan : Nat → Option ℚ)
    (runningWindows : List (Option Nat)) :
    List ScanWindowConfig → Option (Nat × ℚ) → Option Nat
  | [], acc => acc.map (fun p => p.1)
  | sw :: rest, acc =>
    if some sw.id ∈ runningWindows then
      getNextAux windowLastScan runningWindows rest acc
    else
      match acc with
      | none => getNextAux windowLastScan runningWindows rest
          (some (sw.id, (windowLastScan sw.id).getD 0))
      | some (targetId, targetTime) =>
        if (windowLastScan sw.id).getD 0 < targetTime then
          getNextAux windowLastScan runningWindows rest
            (some (sw.id, (windowLastScan sw.id).getD 0))
        else getNextAux windowLastScan runningWindows rest
          (some (targetId, targetTime))

/-- `Scanner.getNextScanWindow` (Scanner.py lines 384-401). -/
def getNextScanWindow (scanWindowConfigs : List ScanWindowConfig)
    (windowLastScan : Nat → Option ℚ)
    (runningWindows : List (Option Nat)) : Option Nat :=
  getNextAux windowLastScan runningWindows scanWindowConfigs none

/-- One receiver's assignment step of `Scanner._runReceivers` (Scanner.py
lines 530-544): when the receiver's current window is falsy (`None`), the
next window is picked, recorded, and a `scan_window` command is sent
carrying it — whatever it is.  Returns (new current entry, the `scan_window`
payloads sent to the receiver). -/
def assignScanWindow (scanWindowConfigs : List ScanWindowConfig)
    (windowLastScan : Nat → Option ℚ) (runningWindows : List (Option Nat))
    (current : Option Nat) : Option Nat × List (Option Nat) :=
  match current with
  | none =>
    let nextWindowId :=
      getNextScanWindow scanWindowConfigs windowLastScan runningWindows
    (nextWindowId, [nextWindowId])
  | some w => (some w, [])

theorem getNextAux_spec (lastScan : Nat → Option ℚ)
    (running : List (Option Nat)) :
    ∀ (l : List ScanWindowConfig) (tid : Nat) (tt : ℚ),
      ∃ rid, getNextAux lastScan running l (some (tid, tt)) = some rid ∧
        ((rid = tid ∧ ∀ x ∈ l.filter (fun sw => some sw.id ∉ running),
            tt ≤ (lastScan x.id).getD 0) ∨
         (∃ l₁ w l₂,
            l.filter (fun sw => some sw.id ∉ running) = l₁ ++ w :: l₂ ∧
            rid = w.id ∧ (lastScan w.id).getD 0 < tt ∧
            (∀ x ∈ l₁, (lastScan w.id).getD 0 < (lastScan x.id).getD 0) ∧
            (∀ x ∈ l.filter (fun sw => some sw.id ∉ running),
              (lastScan w.id).getD 0 ≤ (lastScan x.id).getD 0))) := by
  intro l
  induction l with
  | nil =>
    intro tid tt
    exact ⟨tid, rfl, Or.inl ⟨rfl, by simp⟩⟩
  | cons sw rest ih =>
    intro tid tt
    by_cases hrun : some sw.id ∈ running
    · have hfil : (sw :: rest).filter (fun sw => some sw.id ∉ running)
          = rest.filter (fun sw => some sw.id ∉ running) := by
        rw [List.filter_cons_of_neg (by simpa using hrun)]
      obtain ⟨rid, heq, hcase⟩ := ih tid tt
      exact ⟨rid, by rw [getNextAux, if_pos hrun]; exact heq, by rw [hfil]; exact hcase⟩
    · have hfil : (sw :: rest).filter (fun sw => some sw.id ∉ running)
          = sw :: rest.filter (fun sw => some sw.id ∉ running) := by
        rw [List.filter_cons_of_pos (by simpa using hrun)]
      by_cases hlt : (lastScan sw.id).getD 0 < tt
      · obtain ⟨rid, heq, hcase⟩ := ih sw.id ((lastScan sw.id).getD 0)
        refine ⟨rid, by rw [getNextAux, if_neg hrun, if_pos hlt]; exact heq, ?_⟩
        rcases hcase with ⟨hid, hall⟩ | ⟨l₁, w, l₂, hsplit, hid, hw, hbefore, hall⟩
        · subst hid
          refine Or.inr ⟨[], sw, rest.filter (fun sw => some sw.id ∉ running),
            by rw [hfil]; rfl, rfl, hlt, by simp, ?_⟩
          intro x hx
          rw [hfil] at hx
          rcases List.mem_cons.mp hx with rfl | hx
          · exact le_refl _
          · exact hall x hx
        · refine Or.inr ⟨sw :: l₁, w, l₂, by rw [hfil, hsplit]; rfl, hid,
            lt_trans hw hlt, ?_, ?_⟩
          · intro x hx
            rcases List.mem_cons.mp hx with rfl | hx
            · exact hw
            · exact hbefore x hx
          · intro x hx
            rw [hfil] at hx
            rcases List.mem_cons.mp hx with rfl | hx
            · exact le_of_lt hw
            · exact hall x hx
      · obtain ⟨rid, heq, hcase⟩ := ih tid tt
        refine ⟨rid, by rw [getNextAux, if_neg hrun, if_neg hlt]; exact heq, ?_⟩
        rcases hcase with ⟨hid, hall⟩ | ⟨l₁, w, l₂, hsplit, hid, hw, hbefore, hall⟩
        · refine Or.inl ⟨hid, ?_⟩
          intro x hx
          rw [hfil] at hx
          rcases List.mem_cons.mp hx with rfl | hx
          · exact le_of_not_lt hlt
          · exact hall x hx
        · refine Or.inr ⟨sw :: l₁, w, l₂, by rw [hfil, hsplit]; rfl, hid, hw,
            ?_, ?_⟩
          · intro x hx
            rcases List.mem_cons.mp hx with rfl | hx
            · exact lt_of_lt_of_le hw (le_of_not_lt hlt)
            · exact hbefore x hx
          · intro x hx
            rw [hfil] at hx
            rcases List.mem_cons.mp hx with rfl | hx
            · exact le_of_lt (lt_of_lt_of_le hw (le_of_not_lt hlt))
            · exact hall x hx

/-- C3 (confirmed): with at least one window not running, the scheduler
returns the first window — in configured order — whose last-scan time (0
when never scanned) is minimal among the non-running windows. -/
theorem C3_scheduler_lru (scanWindowConfigs : List ScanWindowConfig)
    (windowLastScan : Nat → Option ℚ) (runningWindows : List (Option Nat))
    (hsome : scanWindowConfigs.filter
        (fun sw => some sw.id ∉ runningWindows) ≠ []) :
    ∃ l₁ w l₂,
      scanWindowConfigs.filter (fun sw => some sw.id ∉ runningWindows)
        = l₁ ++ w :: l₂ ∧
      getNextScanWindow scanWindowConfigs windowLastScan runningWindows
        = some w.id ∧
      (∀ x ∈ scanWindowConfigs.filter (fun sw => some sw.id ∉ runningWindows),
        (windowLastScan w.id).getD 0 ≤ (windowLastScan x.id).getD 0) ∧
      (∀ x ∈ l₁,
        (windowLastScan w.id).getD 0 < (windowLastScan x.id).getD 0) := by
  induction scanWindowConfigs with
  | nil => simp at hsome
  | cons sw rest ih =>
    by_cases hrun : some sw.id ∈ runningWindows
    · have hfil : (sw :: rest).filter (fun sw => some sw.id ∉ runningWindows)
          = rest.filter (fun sw => some sw.id ∉ runningWindows) := by
        rw [List.filter_cons_of_neg (by simpa using hrun)]
      rw [hfil] at hsome ⊢
      obtain ⟨l₁, w, l₂, hsplit, heq, hall, hbefore⟩ := ih hsome
      refine ⟨l₁, w, l₂, hsplit, ?_, hall, hbefore⟩
      rw [getNextScanWindow, getNextAux, if_pos hrun]
      exact heq
    · have hfil : (sw :: rest).filter (fun sw => some sw.id ∉ runningWindows)
          = sw :: rest.filter (fun sw => some sw.id ∉ runningWindows) := by
        rw [List.filter_cons_of_pos (by simpa using hrun)]
      obtain ⟨rid, heq, hcase⟩ :=
        getNextAux_spec windowLastScan runningWindows rest sw.id
          ((windowLastScan sw.id).getD 0)
      have heq' : getNextScanWindow (sw :: rest) windowLastScan runningWindows
          = some rid := by
        rw [getNextScanWindow, getNextAux, if_neg hrun]
        exact heq
      rcases hcase with ⟨hid, hall⟩ | ⟨l₁, w, l₂, hsplit, hid, hw, hbefore, hall⟩
      · refine ⟨[], sw, rest.filter (fun sw => some sw.id ∉ runningWindows),
          by rw [hfil]; rfl, by rw [heq', hid], ?_, by simp⟩
        intro x hx
        rw [hfil] at hx
        rcases List.mem_cons.mp hx with rfl | hx
        · exact le_refl _
        · exact hall x hx
      · refine ⟨sw :: l₁, w, l₂, by rw [hfil, hsplit]; rfl,
          by rw [heq', hid], ?_, ?_⟩
        · intro x hx
          rw [hfil] at hx
          rcases List.mem_cons.mp hx with rfl | hx
          · exact le_of_lt hw
          · exact hall x hx
        · intro x hx
          rcases List.mem_cons.mp hx with rfl | hx
          · exact hw
          · exact hbefore x hx

/-- C3 witness (scenario S3): three windows, none ever scanned, none
running: the pick exists, is minimal and first; concretely it is window 1,
and with windows 1 and 2 running the pick is window 3. -/
theorem C3_scheduler_lru_witness :
    (∃ l₁ w l₂,
      ([⟨1, 0, 0, []⟩, ⟨2, 0, 0, []⟩, ⟨3, 0, 0, []⟩] :
          List ScanWindowConfig).filter (fun sw => some sw.id ∉ ([] : List (Option Nat)))
        = l₁ ++ w :: l₂ ∧
      getNextScanWindow [⟨1, 0, 0, []⟩, ⟨2, 0, 0, []⟩, ⟨3, 0, 0, []⟩]
        (fun _ => none) [] = some w.id ∧
      (∀ x ∈ ([⟨1, 0, 0, []⟩, ⟨2, 0, 0, []⟩, ⟨3, 0, 0, []⟩] :
          List ScanWindowConfig).filter (fun sw => some sw.id ∉ ([] : List (Option Nat))),
        ((fun (_ : Nat) => (none : Option ℚ)) w.id).getD 0 ≤
          ((fun (_ : Nat) => (none : Option ℚ)) x.id).getD 0) ∧
      (∀ x ∈ l₁,
        ((fun (_ : Nat) => (none : Option ℚ)) w.id).getD 0 <
          ((fun (_ : Nat) => (none : Option ℚ)) x.id).getD 0)) ∧
    getNextScanWindow [⟨1, 0, 0, []⟩, ⟨2, 0, 0, []⟩, ⟨3, 0, 0, []⟩]
      (fun _ => none) [] = some 1 ∧
    getNextScanWindow [⟨1, 0, 0, []⟩, ⟨2, 0, 0, []⟩, ⟨3, 0, 0, []⟩]
      (fun _ => none) [some 1, some 2] = some 3 := by
  refine ⟨C3_scheduler_lru _ _ _ (by simp), ?_, ?_⟩
  · simp [getNextScanWindow, getNextAux]
  · simp [getNextScanWindow, getNextAux]

theorem getNextAux_all_running (lastScan : Nat → Option ℚ)
    (running : List (Option Nat)) :
    ∀ l : List ScanWindowConfig, (∀ sw ∈ l, some sw.id ∈ running) →
      getNextAux lastScan running l none = none := by
  intro l
  induction l with
  | nil => intro _; rfl
  | cons sw rest ih =>
    intro hall
    rw [getNextAux, if_pos (hall sw (by simp))]
    exact ih (fun x hx => hall x (by simp [hx]))

/-- C10 (confirmed): when every configured window id is a current window of
some receiver, `getNextScanWindow` returns `None`, and the assignment step
for an idle receiver still sends a `scan_window` command whose payload is
`None` rather than skipping the send. -/
theorem C10_assign_none (scanWindowConfigs : List ScanWindowConfig)
    (windowLastScan : Nat → Option ℚ) (runningWindows : List (Option Nat))
    (hall : ∀ sw ∈ scanWindowConfigs, some sw.id ∈ runningWindows) :
    getNextScanWindow scanWindowConfigs windowLastScan runningWindows
      = none ∧
    assignScanWindow scanWindowConfigs windowLastScan runningWindows none
      = (none, [none]) := by
  have hnone := getNextAux_all_running windowLastScan runningWindows
    scanWindowConfigs hall
  refine ⟨hnone, ?_⟩
  rw [assignScanWindow]
  rw [show getNextScanWindow scanWindowConfigs windowLastScan runningWindows
    = none from hnone]

/-- C10 witness: two windows, both running (a third receiver entry is
`None`, as `_receiverCurrentScanWindow.values()` may contain). -/
theorem C10_assign_none_witness :
    getNextScanWindow [⟨1, 0, 0, []⟩, ⟨2, 0, 0, []⟩] (fun _ => none)
      [some 1, some 2, none] = none ∧
    assignScanWindow [⟨1, 0, 0, []⟩, ⟨2, 0, 0, []⟩] (fun _ => none)
      [some 1, some 2, none] none = (none, [none]) :=
  C10_assign_none _ _ _ (by decide)

/-! ### Channel status (Channel.py lines 27-32, 665-703, 1045-1095) -/

/-- `ChannelStatus` (Channel.py lines 27-32). -/
inductive ChannelStatus
  | IDLE
  | ACTIVE
  | DWELL
  | HOLD
  | FORCE_ACTIVE
deriving DecidableEq

/-- The state `ChannelBlock_FM.getStatus` reads and writes (Channel.py lines
407-421, 665-694): operator flags, the dwell clock, the activity bit.
`squelchUnmuted` is passed per call: it is
`blockAnalogPowerSquelch.unmuted()`, the gate of the gnuradio power-squelch
block. -/
structure FMState where
  hold : Bool
  forceActive : Bool
  active : Bool
  lastActive : ℚ
  dwellTime_s : ℚ
deriving DecidableEq

/-- `ChannelBlock_FM.getStatus` (Channel.py lines 665-694): returned status
and updated state.  The status-report block (lines 679-692) only sends pipe
events; it never changes the returned status and is omitted. -/
def fmGetStatus (s : FMState) (squelchUnmuted : Bool) (now : ℚ) :
    ChannelStatus × FMState :=
  let status := if s.hold then ChannelStatus.HOLD else ChannelStatus.IDLE
  if squelchUnmuted then
    ((if s.forceActive then ChannelStatus.FORCE_ACTIVE
      else ChannelStatus.ACTIVE),
     { s with active := true, lastActive := now })
  else
    ((if now - s.lastActive < s.dwellTime_s then ChannelStatus.DWELL
      else status),
     { s with active := false })

/-- The state `ChannelBlock_EAS.getStatus` and `activeCb` read and write
(Channel.py lines 979-981, 1045-1092): flags, the tone gate `_active`, the
consecutive-trigger counter and the gate timeout.  `_lastActive` is written
but never read by the EAS status path and is omitted. -/
structure EASState where
  hold : Bool
  forceActive : Bool
  active : Bool
  triggerCount : Nat
  timeoutTime : ℚ
  dwellTime_s : ℚ
deriving DecidableEq

/-- `ChannelBlock_EAS.activeCb` (Channel.py lines 1045-1060): a positive
frame increments the counter and the third consecutive one opens the gate
until `now + dwell`; a negative frame resets the counter (the open gate
stays open until its timeout). -/
def easActiveCb (s : EASState) (isActive : Bool) (now : ℚ) : EASState :=
  if isActive then
    let s' := { s with triggerCount := s.triggerCount + 1 }
    if 3 ≤ s'.triggerCount then
      { s' with active := true, timeoutTime := now + s.dwellTime_s }
    else s'
  else { s with triggerCount := 0 }

/-- `ChannelBlock_EAS.getStatus` (Channel.py lines 1062-1092): returned
status and updated state.  The status-report block and the
`blockEASAudioMute.set_mute` side effect do not change the returned
status. -/
def easGetStatus (s : EASState) (now : ℚ) : ChannelStatus × EASState :=
  if s.active || s.forceActive then
    if s.forceActive then
      (ChannelStatus.FORCE_ACTIVE, { s with active := true })
    else
      (ChannelStatus.ACTIVE,
       if now > s.timeoutTime then { s with active := false }
       else { s with active := true })
  else if 0 < s.triggerCount then (ChannelStatus.DWELL, s)
  else ((if s.hold then ChannelStatus.HOLD else ChannelStatus.IDLE), s)

/-- C5's claim as worded, for the FM block: ForceActive on the flag alone,
then Active, Dwell, Hold, Idle. -/
def claimStatusFM (hold forceActive squelchOpen : Bool)
    (now lastActive dwell : ℚ) : ChannelStatus :=
  if forceActive then ChannelStatus.FORCE_ACTIVE
  else if squelchOpen then ChannelStatus.ACTIVE
  else if now - lastActive < dwell then ChannelStatus.DWELL
  else if hold then ChannelStatus.HOLD
  else ChannelStatus.IDLE

/-- C5's claim as worded, for the EAS block: Dwell exactly when the counter
is non-zero but below three. -/
def claimStatusEAS (hold forceActive gateOpen : Bool) (triggerCount : Nat) :
    ChannelStatus :=
  if forceActive then ChannelStatus.FORCE_ACTIVE
  else if gateOpen then ChannelStatus.ACTIVE
  else if 0 < triggerCount ∧ triggerCount < 3 then ChannelStatus.DWELL
  else if hold then ChannelStatus.HOLD
  else ChannelStatus.IDLE

/-- C5 (amended): the FM status is ForceActive only when the force flag is
set AND the squelch is open (the flag drives the squelch threshold to
-150 dBFS, so the squelch is normally open, but the flag alone does not give
ForceActive); then Active on open squelch, Dwell within `dwell_s` of the
last open squelch, then Hold, else Idle — so the claim's chain holds exactly
when the force flag is clear.  The EAS status is ForceActive on the flag
alone, Active on the open gate, and Dwell whenever the gate is closed and
the trigger counter is non-zero — including a counter at three after the
gate timed out — so the claim's chain holds exactly when the counter is
below three. -/
theorem C5_status_priority :
    (∀ (s : FMState) (sq : Bool) (now : ℚ),
      (fmGetStatus s sq now).1 =
        if sq then
          (if s.forceActive then ChannelStatus.FORCE_ACTIVE
           else ChannelStatus.ACTIVE)
        else if now - s.lastActive < s.dwellTime_s then ChannelStatus.DWELL
        else if s.hold then ChannelStatus.HOLD
        else ChannelStatus.IDLE) ∧
    (∀ (s : FMState) (sq : Bool) (now : ℚ), s.forceActive = false →
      (fmGetStatus s sq now).1 =
        claimStatusFM s.hold s.forceActive sq now s.lastActive
          s.dwellTime_s) ∧
    (∀ (s : EASState) (now : ℚ),
      (easGetStatus s now).1 =
        if s.forceActive then ChannelStatus.FORCE_ACTIVE
        else if s.active then ChannelStatus.ACTIVE
        else if 0 < s.triggerCount then ChannelStatus.DWELL
        else if s.hold then ChannelStatus.HOLD
        else ChannelStatus.IDLE) ∧
    (∀ (s : EASState) (now : ℚ), s.triggerCount < 3 →
      (easGetStatus s now).1 =
        claimStatusEAS s.hold s.forceActive s.active s.triggerCount) := by
  refine ⟨?_, ?_, ?_, ?_⟩
  · intro s sq now
    cases sq <;> simp [fmGetStatus]
  · intro s sq now hf
    cases sq <;> simp [fmGetStatus, claimStatusFM, hf]
  · intro s now
    cases hfa : s.forceActive <;> cases ha : s.active <;>
      simp [easGetStatus, hfa, ha]
    by_cases hc : 0 < s.triggerCount <;> simp [hc]
  · intro s now h3
    cases hfa : s.forceActive <;> cases ha : s.active <;>
      simp [easGetStatus, claimStatusEAS, hfa, ha]
    by_cases hc : 0 < s.triggerCount <;> simp [hc, h3]

/-- C5 counterexample: an FM channel with the force-active flag set but the
squelch closed (possible right after `setForceActive`, before the power
average crosses even the forced -150 dBFS threshold) returns Idle, not
ForceActive; an EAS channel whose gate timed out with the counter still at
three returns Dwell where the claim's chain gives Idle. -/
theorem C5_counterexample :
    (fmGetStatus ⟨false, true, false, 0, 3⟩ false 100).1
        = ChannelStatus.IDLE ∧
    claimStatusFM false true false 100 0 3 = ChannelStatus.FORCE_ACTIVE ∧
    (easGetStatus ⟨false, false, false, 3, 0, 3⟩ 100).1
        = ChannelStatus.DWELL ∧
    claimStatusEAS false false false 3 = ChannelStatus.IDLE ∧
    ChannelStatus.IDLE ≠ ChannelStatus.FORCE_ACTIVE ∧
    ChannelStatus.DWELL ≠ ChannelStatus.IDLE := by
  refine ⟨?_, by simp [claimStatusFM], by simp [easGetStatus],
    by simp [claimStatusEAS], by simp, by simp⟩
  simp [fmGetStatus]
  norm_num

/-! ### Effective enabling (Channel.py lines 142-155, Scanner.py 407-414) -/

/-- C8 (amended): `isEnabled()` returns true iff the disable timestamp is
clear and the internal enabled flag is set.  `disableUntil` clears the
enabled flag, so once `now` passes the timestamp `isEnabled()` itself still
returns false — it merely clears the expired timestamp — and the channel
only reads enabled again after the supervisor's maintenance pass calls
`enable(True)` on it. -/
theorem C8_is_enabled (cc : ChannelConfig) (now t : ℚ) (hnow : now > t) :
    ((cc.isEnabledRun now).1 = cc.isEnabled) ∧
    (((cc.setDisableUntil t).isEnabledRun now).1 = false) ∧
    ((runMaintenanceChannel (cc.setDisableUntil t) now).isEnabled = true) ∧
    (cc.isEnabled = true → cc.enabled = true ∧ cc.disableUntil = none) := by
  refine ⟨?_, rfl, ?_, ?_⟩
  · cases h : cc.disableUntil <;>
      simp [ChannelConfig.isEnabledRun, ChannelConfig.isEnabled, h]
  · simp [runMaintenanceChannel, ChannelConfig.setDisableUntil,
      ChannelConfig.enable, ChannelConfig.isEnabled, hnow]
  · intro h
    simp [ChannelConfig.isEnabled] at h
    exact ⟨h.2, h.1⟩

/-- C8 witness: disable a fresh channel until t = 5 and query at now = 10. -/
theorem C8_is_enabled_witness :
    (((mkChannelConfig 1 162400000).isEnabledRun 10).1
        = (mkChannelConfig 1 162400000).isEnabled) ∧
    ((((mkChannelConfig 1 162400000).setDisableUntil 5).isEnabledRun 10).1
        = false) ∧
    ((runMaintenanceChannel
        ((mkChannelConfig 1 162400000).setDisableUntil 5) 10).isEnabled
        = true) ∧
    ((mkChannelConfig 1 162400000).isEnabled = true →
      (mkChannelConfig 1 162400000).enabled = true ∧
      (mkChannelConfig 1 162400000).disableUntil = none) :=
  C8_is_enabled (mkChannelConfig 1 162400000) 10 5 (by norm_num)

/-- C8 counterexample: after `disableUntil(5)`, at `now = 10 ≥ 5` the claim
says the channel immediately counts as effectively enabled again, but
`isEnabled()` returns false (and keeps doing so until the maintenance
pass). -/
theorem C8_counterexample :
    ((mkChannelConfig 1 162400000).setDisableUntil 5).disableUntil
        = some 5 ∧
    ((5 : ℚ) ≤ 10) ∧
    ((((mkChannelConfig 1 162400000).setDisableUntil 5).isEnabledRun 10).1
        = false) := by
  refine ⟨rfl, by norm_num, rfl⟩

/-! ### Mute and solo accounting (Channel.py lines 468-480, Scanner.py lines
204-250, Receiver.py lines 365-378) -/

/-- One channel as the supervisor and the owning receiver jointly hold it:
the supervisor-side `ChannelConfig.mute`/`solo`, the block-side `_mute` and
`_solo`, and `outMute` — the value currently driven into the
`blocks.mute_ff` output-mute block (the effective mute).  Channel ids are
uuid4 values, pairwise distinct, so the per-id broadcast loops of
Receiver.py lines 365-378 act on exactly one channel each. -/
structure ChanState where
  id : Nat
  cfgMute : Bool
  cfgSolo : Option Bool
  blkMute : Bool
  blkSolo : Option Bool
  outMute : Bool
deriving DecidableEq

/-- A channel as built at startup: config `mute=False, solo=None`
(`ChannelConfig.fromConfigDict` sets neither), block copies of both, and an
output-mute block constructed as `blocks.mute_ff(False)` (Channel.py line
432; `setMute` is not called during construction). -/
def initChanState (cid : Nat) : ChanState :=
  ⟨cid, false, none, false, none, false⟩

/-- `ChannelBlock_Base.setMute` (Channel.py lines 468-476): store the mute
bit; the value driven into the output block is forced true when
`_solo is not None and not _solo`. -/
def blkSetMute (c : ChanState) (m : Bool) : ChanState :=
  let finalMute := if c.blkSolo = some false then true else m
  { c with blkMute := m, outMute := finalMute }

/-- `ChannelBlock_Base.setSolo` (Channel.py lines 478-480): store the solo
tri-state, then re-apply the stored mute bit. -/
def blkSetSolo (c : ChanState) (s : Option Bool) : ChanState :=
  blkSetMute { c with blkSolo := s } c.blkMute

/-- `Scanner._channelMute` (Scanner.py lines 204-221) together with the
receivers' `ChannelMute` handler (Receiver.py lines 365-371): set the
addressed config's mute bit and call `setMute` on its block.  `none` models
the `raise` when no channel has the id. -/
def scannerChannelMute (cs : List ChanState) (cid : Nat) (m : Bool) :
    Option (List ChanState) :=
  if (cs.find? (fun c => c.id == cid)).isSome then
    some (cs.map (fun c =>
      if c.id == cid then blkSetMute { c with cfgMute := m } m else c))
  else none

/-- `Scanner._channelSolo` (Scanner.py lines 223-250) together with the
receivers' `ChannelSolo` handler (Receiver.py lines 372-378): set the
addressed config's solo to the commanded bool; `soloActive = solo or
any(c.solo)`; when active, broadcast `bool(cc.solo)` to every channel's
block; otherwise reset every config solo to `None` and broadcast `None`. -/
def scannerChannelSolo (cs : List ChanState) (cid : Nat) (v : Bool) :
    Option (List ChanState) :=
  if (cs.find? (fun c => c.id == cid)).isSome then
    let cs₁ := cs.map (fun c =>
      if c.id == cid then { c with cfgSolo := some v } else c)
    let soloActive := v || cs₁.any (fun c => c.cfgSolo == some true)
    some (cs₁.map (fun c =>
      if soloActive then blkSetSolo c (some (c.cfgSolo == some true))
      else blkSetSolo { c with cfgSolo := none } none))
  else none

/-- A mute or solo command from the UI queues
(`Scanner._checkInputQueues`, Scanner.py lines 153-160). -/
inductive ScannerCmd
  | muteCmd (cid : Nat) (v : Bool)
  | soloCmd (cid : Nat) (v : Bool)
deriving DecidableEq

def applyCmd (cs : List ChanState) : ScannerCmd → Option (List ChanState)
  | ScannerCmd.muteCmd cid v => scannerChannelMute cs cid v
  | ScannerCmd.soloCmd cid v => scannerChannelSolo cs cid v

/-- A command sequence applied in order; a failing command aborts (the
scanner stops on the raised exception). -/
def applyCmds (cs : List ChanState) (cmds : List ScannerCmd) :
    Option (List ChanState) :=
  cmds.foldlM applyCmd cs

/-- C4: evaluating the code at the failing input.  Starting from two fresh
channels, mute channel 1 and then solo it: channel 1 keeps
`outMute = true` — its own mute bit — although its solo is true, where the
claim (and the `ChannelConfig.setSolo` docstring, "True - This Channel is
unmuted") demands effective mute `¬solo = false`.  Channel 2 is muted as
the claim says. -/
theorem C4_solo_mute_eval :
    applyCmds [initChanState 1, initChanState 2]
        [ScannerCmd.muteCmd 1 true, ScannerCmd.soloCmd 1 true]
      = some [⟨1, true, some true, true, some true, true⟩,
              ⟨2, false, none, false, some false, true⟩] ∧
    (∃ cs, applyCmds [initChanState 1, initChanState 2]
        [ScannerCmd.muteCmd 1 true, ScannerCmd.soloCmd 1 true] = some cs ∧
      ∃ c ∈ cs, c.cfgSolo = some true ∧ c.outMute = true) := by
  refine ⟨by decide, ⟨[⟨1, true, some true, true, some true, true⟩,
    ⟨2, false, none, false, some false, true⟩], by decide, ?_⟩⟩
  exact ⟨⟨1, true, some true, true, some true, true⟩, by decide, by decide,
    by decide⟩

/-! ### Window planning (Scanner.py lines 347-382)

`buildWindows` walks the set of enabled channel frequencies, repeatedly
cutting a window of width `bandwidth` at the lowest unallocated frequency.
`cc.isEnabled()` is a call with a side effect (it clears an expired disable
timestamp) but its return value always equals the pure
`ChannelConfig.isEnabled` of this file (first conjunct of `C8_is_enabled`),
so the planner reads it as the pure predicate.  Python computes
`bandwidth / 2` in floats; the advertised rates the planner is fed are even
integers, for which the value is exact, and it is embedded as integer
division. -/

/-- `BAND_EDGE_MARGIN` (Scanner.py line 359). -/
def BAND_EDGE_MARGIN : Int := 200000

/-- Stable insertion into a freq-sorted list: an element goes in front of
later elements with an equal key, as Python's stable `sorted` keeps it. -/
def insertSorted (cc : ChannelConfig) : List ChannelConfig → List ChannelConfig
  | [] => [cc]
  | c :: cs =>
      if cc.freq_hz ≤ c.freq_hz then cc :: c :: cs else c :: insertSorted cc cs

/-- `sorted(ccs, key=lambda x: x.freq_hz)` (Scanner.py line 370) as a stable
insertion sort. -/
def sortByFreq : List ChannelConfig → List ChannelConfig
  | [] => []
  | c :: cs => insertSorted c (sortByFreq cs)

/-- The `for cc in ccs: freqsToAllocate.remove(cc.freq_hz)` loop (Scanner.py
lines 371-372); `none` models the `KeyError` that `set.remove` raises when
the frequency is absent. -/
def removeFreqs : List ChannelConfig → Finset Int → Option (Finset Int)
  | [], s => some s
  | cc :: ccs, s =>
      if cc.freq_hz ∈ s then removeFreqs ccs (s.erase cc.freq_hz) else none

/-- `{cc.freq_hz for cc in self.channelConfigs if cc.isEnabled()}`
(Scanner.py line 363). -/
def enabledFreqs (ccs : List ChannelConfig) : Finset Int :=
  ((ccs.filter (fun cc => cc.isEnabled)).map (fun cc => cc.freq_hz)).toFinset

/-- `hardwareFreq = lowFreq + bandwidth / 2 - BAND_EDGE_MARGIN` (Scanner.py
line 366). -/
def windowHardwareFreq (lowFreq bandwidth : Int) : Int :=
  lowFreq + bandwidth / 2 - BAND_EDGE_MARGIN

/-- `highFreq = 2*hardwareFreq - lowFreq` (Scanner.py line 367). -/
def windowHighFreq (lowFreq bandwidth : Int) : Int :=
  2 * windowHardwareFreq lowFreq bandwidth - lowFreq

/-- `[cc for cc in self.channelConfigs if cc.isEnabled() and cc.freq_hz >=
lowFreq and cc.freq_hz <= highFreq]` (Scanner.py line 369). -/
def windowSelect (ccs : List ChannelConfig) (lowFreq highFreq : Int) :
    List ChannelConfig :=
  ccs.filter (fun cc => cc.isEnabled && decide (lowFreq ≤ cc.freq_hz)
    && decide (cc.freq_hz ≤ highFreq))

/-- `if len(ccs) > self.maxChannelsPerWindow: ccs = sorted(ccs, key=lambda
x: x.freq_hz)[0:self.maxChannelsPerWindow]` (Scanner.py line 370). -/
def windowTruncate (maxPW : Nat) (sel : List ChannelConfig) :
    List ChannelConfig :=
  if maxPW < sel.length then (sortByFreq sel).take maxPW else sel

/-- The `while freqsToAllocate` loop of `Scanner.buildWindows` (Scanner.py
lines 364-374), fuelled: each pass cuts the window anchored at the lowest
unallocated frequency, truncates it to the `maxChannelsPerWindow` lowest
channels when over-full, and removes the window's frequencies from the set.
`none` models the `KeyError` raise or a pass that never empties the set
(the Python loop then never terminates); window ids are numbered in
creation order in place of `uuid4`. -/
def buildWindowsAux (ccs : List ChannelConfig) (bandwidth : Int)
    (maxPW : Nat) : Nat → Finset Int → Nat → Option (List ScanWindowConfig)
  | 0, s, _ => if s = ∅ then some [] else none
  | fuel + 1, s, counter =>
      if hs : s.Nonempty then
        match removeFreqs (windowTruncate maxPW (windowSelect ccs (s.min' hs)
            (windowHighFreq (s.min' hs) bandwidth))) s with
        | none => none
        | some s' =>
            match buildWindowsAux ccs bandwidth maxPW fuel s' (counter + 1)
            with
            | none => none
            | some ws =>
                some (⟨counter, windowHardwareFreq (s.min' hs) bandwidth,
                  bandwidth,
                  windowTruncate maxPW (windowSelect ccs (s.min' hs)
                    (windowHighFreq (s.min' hs) bandwidth))⟩ :: ws)
      else some []

/-- `Scanner.buildWindows` (Scanner.py lines 347-382), given the already
computed common `bandwidth` (line 352): the loop removes at least one
frequency per successful pass, so `card` passes of fuel are exactly
enough. -/
def buildWindows (ccs : List ChannelConfig) (bandwidth : Int) (maxPW : Nat) :
    Option (List ScanWindowConfig) :=
  buildWindowsAux ccs bandwidth maxPW (enabledFreqs ccs).card
    (enabledFreqs ccs) 0

/-- All channels of a window list, in order. -/
def windowChannels (ws : List ScanWindowConfig) : List ChannelConfig :=
  ws.foldr (fun w acc => w.channelConfigs ++ acc) []

theorem insertSorted_perm (cc : ChannelConfig) (l : List ChannelConfig) :
    List.Perm (insertSorted cc l) (cc :: l) := by
  induction l with
  | nil => exact List.Perm.refl _
  | cons c cs ih =>
      rw [insertSorted]
      split
      · exact List.Perm.refl _
      · exact (ih.cons c).trans (List.Perm.swap cc c cs)

theorem sortByFreq_perm (l : List ChannelConfig) :
    List.Perm (sortByFreq l) l := by
  induction l with
  | nil => exact List.Perm.refl _
  | cons c cs ih =>
      exact (insertSorted_perm c (sortByFreq cs)).trans (ih.cons c)

theorem insertSorted_sorted (cc : ChannelConfig) (l : List ChannelConfig)
    (h : List.Sorted (fun a b : ChannelConfig => a.freq_hz ≤ b.freq_hz) l) :
    List.Sorted (fun a b : ChannelConfig => a.freq_hz ≤ b.freq_hz)
      (insertSorted cc l) := by
  induction l with
  | nil => simp [insertSorted]
  | cons c cs ih =>
      rw [insertSorted]
      rw [List.sorted_cons] at h
      split
      · rename_i hle
        rw [List.sorted_cons]
        refine ⟨?_, List.sorted_cons.mpr h⟩
        intro b hb
        rcases List.mem_cons.mp hb with hb | hb
        · exact hb ▸ hle
        · exact le_trans hle (h.1 b hb)
      · rename_i hgt
        rw [List.sorted_cons]
        refine ⟨?_, ih h.2⟩
        intro b hb
        rcases List.mem_cons.mp ((insertSorted_perm cc cs).mem_iff.mp hb)
          with hb | hb
        · exact hb ▸ le_of_not_le hgt
        · exact h.1 b hb

theorem sortByFreq_sorted (l : List ChannelConfig) :
    List.Sorted (fun a b : ChannelConfig => a.freq_hz ≤ b.freq_hz)
      (sortByFreq l) := by
  induction l with
  | nil => simp [sortByFreq]
  | cons c cs ih => exact insertSorted_sorted c (sortByFreq cs) ih

theorem removeFreqs_spec (l : List ChannelConfig) (s : Finset Int)
    (hnd : (l.map (fun cc => cc.freq_hz)).Nodup)
    (hmem : ∀ cc ∈ l, cc.freq_hz ∈ s) :
    removeFreqs l s
      = some (s \ (l.map (fun cc => cc.freq_hz)).toFinset) := by
  induction l generalizing s with
  | nil => simp [removeFreqs]
  | cons c cs ih =>
      rw [removeFreqs, if_pos (hmem c (List.mem_cons_self c cs))]
      rw [List.map_cons, List.nodup_cons] at hnd
      rw [ih (s.erase c.freq_hz) hnd.2 ?side]
      case side =>
        intro cc hcc
        refine Finset.mem_erase.mpr ⟨?_, hmem cc (List.mem_cons_of_mem c hcc)⟩
        intro hEq
        exact hnd.1 (hEq ▸ List.mem_map_of_mem (fun x => x.freq_hz) hcc)
      congr 1
      ext a
      simp only [Finset.mem_sdiff, Finset.mem_erase, List.map_cons,
        List.toFinset_cons, Finset.mem_insert, List.mem_toFinset]
      constructor
      · rintro ⟨⟨hne, ha⟩, hnm⟩
        exact ⟨ha, by rintro (h | h) <;> [exact hne h; exact hnm h]⟩
      · rintro ⟨ha, hnm⟩
        exact ⟨⟨fun h => hnm (Or.inl h), ha⟩, fun h => hnm (Or.inr h)⟩

/-- The planner loop's invariant: starting from any still-to-allocate set
`s` of enabled frequencies such that every already-allocated enabled
frequency lies strictly below everything in `s`, the loop succeeds and its
windows hold exactly the enabled channels whose frequency is in `s`, each
channel once. -/
theorem buildWindowsAux_spec (ccs : List ChannelConfig) (bandwidth : Int)
    (maxPW : Nat)
    (hdist : ((ccs.filter (fun cc => cc.isEnabled)).map
        (fun cc => cc.freq_hz)).Nodup)
    (hbw : 2 * BAND_EDGE_MARGIN ≤ bandwidth) (hmax : 1 ≤ maxPW) :
    ∀ (fuel : Nat) (s : Finset Int) (counter : Nat),
      s ⊆ enabledFreqs ccs →
      (∀ f ∈ enabledFreqs ccs, f ∉ s → ∀ g ∈ s, f < g) →
      s.card ≤ fuel →
      ∃ ws, buildWindowsAux ccs bandwidth maxPW fuel s counter = some ws ∧
        (∀ cc, cc ∈ windowChannels ws ↔
          (cc ∈ ccs ∧ cc.isEnabled = true ∧ cc.freq_hz ∈ s)) ∧
        (windowChannels ws).Nodup := by
  intro fuel
  induction fuel with
  | zero =>
      intro s counter hsub hinv hcard
      have hse : s = ∅ := Finset.card_eq_zero.mp (Nat.le_zero.mp hcard)
      subst hse
      exact ⟨[], by simp [buildWindowsAux],
        fun cc => by simp [windowChannels], by simp [windowChannels]⟩
  | succ fuel ih =>
      intro s counter hsub hinv hcard
      by_cases hs : s.Nonempty
      case neg =>
        have hse : s = ∅ := Finset.not_nonempty_iff_eq_empty.mp hs
        subst hse
        exact ⟨[], by rw [buildWindowsAux]; exact dif_neg hs,
          fun cc => by simp [windowChannels], by simp [windowChannels]⟩
      case pos =>
      set L := s.min' hs with hL
      set HI := windowHighFreq L bandwidth with hHI
      set sel := windowSelect ccs L HI with hselDef
      set tr := windowTruncate maxPW sel with htrDef
      have hselMem : ∀ cc, cc ∈ sel ↔
          cc ∈ ccs ∧ cc.isEnabled = true ∧ L ≤ cc.freq_hz ∧
            cc.freq_hz ≤ HI := by
        intro cc
        rw [hselDef, windowSelect, List.mem_filter]
        simp [and_assoc]
      have hLs : L ∈ s := by rw [hL]; exact Finset.min'_mem s hs
      have hLHI : L ≤ HI := by
        rw [hHI, windowHighFreq, windowHardwareFreq]
        simp only [BAND_EDGE_MARGIN] at hbw ⊢
        omega
      have hselS : ∀ cc ∈ sel, cc.freq_hz ∈ s := by
        intro cc hcc
        rcases (hselMem cc).mp hcc with ⟨hin, hen, hge, _⟩
        by_contra hns
        have hfm : cc.freq_hz ∈ enabledFreqs ccs :=
          List.mem_toFinset.mpr (List.mem_map.mpr
            ⟨cc, List.mem_filter.mpr ⟨hin, hen⟩, rfl⟩)
        have := hinv cc.freq_hz hfm hns L hLs
        omega
      have hselFE : ∀ cc ∈ sel, cc ∈ ccs.filter (fun cc => cc.isEnabled) := by
        intro cc hcc
        rcases (hselMem cc).mp hcc with ⟨hin, hen, _, _⟩
        exact List.mem_filter.mpr ⟨hin, hen⟩
      have hinj : ∀ x ∈ ccs.filter (fun cc => cc.isEnabled),
          ∀ y ∈ ccs.filter (fun cc => cc.isEnabled),
          x.freq_hz = y.freq_hz → x = y := by
        intro x hx y hy hxy
        exact List.inj_on_of_nodup_map hdist hx hy hxy
      have hselEq : sel = (ccs.filter (fun cc => cc.isEnabled)).filter
          (fun cc => decide (L ≤ cc.freq_hz)
            && decide (cc.freq_hz ≤ HI)) := by
        rw [hselDef, windowSelect, List.filter_filter]
        exact (List.filter_congr (fun a _ => by
          simp [Bool.and_comm, Bool.and_assoc, Bool.and_left_comm])).symm
      have hselN : (sel.map (fun cc => cc.freq_hz)).Nodup := by
        rw [hselEq]
        exact hdist.sublist ((List.filter_sublist _).map _)
      have hsortN : ((sortByFreq sel).map (fun cc => cc.freq_hz)).Nodup :=
        (((sortByFreq_perm sel).map (fun cc => cc.freq_hz)).nodup_iff).mpr
          hselN
      have htrN : (tr.map (fun cc => cc.freq_hz)).Nodup := by
        rw [htrDef, windowTruncate]
        split
        · exact hsortN.sublist ((List.take_sublist _ _).map _)
        · exact hselN
      have htrNodup : tr.Nodup := htrN.of_map
      have htrSel : ∀ cc ∈ tr, cc ∈ sel := by
        intro cc hcc
        rw [htrDef, windowTruncate] at hcc
        split at hcc
        · exact (sortByFreq_perm sel).mem_iff.mp (List.mem_of_mem_take hcc)
        · exact hcc
      have htrS : ∀ cc ∈ tr, cc.freq_hz ∈ s :=
        fun cc hcc => hselS cc (htrSel cc hcc)
      have hrem : removeFreqs tr s
          = some (s \ (tr.map (fun cc => cc.freq_hz)).toFinset) :=
        removeFreqs_spec tr s htrN htrS
      set R := (tr.map (fun cc => cc.freq_hz)).toFinset with hRdef
      have hRmem : ∀ f, f ∈ R ↔ ∃ cc ∈ tr, cc.freq_hz = f := by
        intro f
        rw [hRdef]
        simp
      obtain ⟨c0, hc0f, hc0L⟩ : ∃ cc ∈ ccs.filter (fun cc => cc.isEnabled),
          cc.freq_hz = L := by
        rcases List.mem_map.mp (List.mem_toFinset.mp (hsub hLs))
          with ⟨c0, h1, h2⟩
        exact ⟨c0, h1, h2⟩
      have hc0sel : c0 ∈ sel := by
        rcases List.mem_filter.mp hc0f with ⟨hin, hen⟩
        refine (hselMem c0).mpr ⟨hin, hen, le_of_eq hc0L.symm, ?_⟩
        rw [hc0L]
        exact hLHI
      have htrNe : tr ≠ [] := by
        rw [htrDef, windowTruncate]
        split
        · rename_i hlen
          have hlq : (sortByFreq sel).length = sel.length :=
            (sortByFreq_perm sel).length_eq
          intro hnil
          have hlen0 := congrArg List.length hnil
          rw [List.length_take, hlq, List.length_nil] at hlen0
          omega
        · exact List.ne_nil_of_mem hc0sel
      obtain ⟨cH, hcH⟩ := List.exists_mem_of_ne_nil tr htrNe
      have hcHR : cH.freq_hz ∈ R := (hRmem _).mpr ⟨cH, hcH, rfl⟩
      have hssub : s \ R ⊆ s := Finset.sdiff_subset
      have hssubs : s \ R ⊂ s := (Finset.ssubset_iff_of_subset hssub).mpr
        ⟨cH.freq_hz, htrS cH hcH,
          fun hmem => (Finset.mem_sdiff.mp hmem).2 hcHR⟩
      have hltc : (s \ R).card < s.card := Finset.card_lt_card hssubs
      have hsub' : s \ R ⊆ enabledFreqs ccs := fun f hf => hsub (hssub hf)
      have hinv' : ∀ f ∈ enabledFreqs ccs, f ∉ s \ R →
          ∀ g ∈ s \ R, f < g := by
        intro f hf hfns g hg
        rcases Finset.mem_sdiff.mp hg with ⟨hgs, hgR⟩
        by_cases hfs : f ∈ s
        case neg => exact hinv f hf hfs g hgs
        case pos =>
          have hfR : f ∈ R := by
            by_contra hfR
            exact hfns (Finset.mem_sdiff.mpr ⟨hfs, hfR⟩)
          rcases (hRmem f).mp hfR with ⟨cf, hcf, hcff⟩
          have hcfsel := htrSel cf hcf
          have hfHI : f ≤ HI := by
            rcases (hselMem cf).mp hcfsel with ⟨_, _, _, h4⟩
            rw [← hcff]
            exact h4
          by_cases hgHI : HI < g
          case pos => omega
          case neg =>
            push_neg at hgHI
            obtain ⟨cg, hcgf, hcgL⟩ :
                ∃ cc ∈ ccs.filter (fun cc => cc.isEnabled),
                  cc.freq_hz = g := by
              rcases List.mem_map.mp (List.mem_toFinset.mp (hsub hgs))
                with ⟨cg, h1, h2⟩
              exact ⟨cg, h1, h2⟩
            have hLg : L ≤ g := by
              rw [hL]
              exact Finset.min'_le s g hgs
            have hcgsel : cg ∈ sel := by
              rcases List.mem_filter.mp hcgf with ⟨hin, hen⟩
              refine (hselMem cg).mpr ⟨hin, hen, ?_, ?_⟩
              · rw [hcgL]; exact hLg
              · rw [hcgL]; exact hgHI
            have hcgntr : cg ∉ tr := by
              intro hcgtr
              exact hgR ((hRmem g).mpr ⟨cg, hcgtr, hcgL⟩)
            rw [htrDef, windowTruncate] at hcf hcgntr
            by_cases hcond : maxPW < sel.length
            case neg =>
              rw [if_neg hcond] at hcgntr
              exact absurd hcgsel hcgntr
            case pos =>
              rw [if_pos hcond] at hcf hcgntr
              have hcgsort : cg ∈ sortByFreq sel :=
                (sortByFreq_perm sel).mem_iff.mpr hcgsel
              have hsplit : cg ∈ (sortByFreq sel).take maxPW
                  ++ (sortByFreq sel).drop maxPW := by
                rw [List.take_append_drop]
                exact hcgsort
              have hcgdrop : cg ∈ (sortByFreq sel).drop maxPW := by
                rcases List.mem_append.mp hsplit with h | h
                · exact absurd h hcgntr
                · exact h
              have hsorted := sortByFreq_sorted sel
              rw [← List.take_append_drop maxPW (sortByFreq sel)] at hsorted
              have hle : cf.freq_hz ≤ cg.freq_hz :=
                (List.pairwise_append.mp hsorted).2.2 cf hcf cg hcgdrop
              have hne : cf ≠ cg := by
                intro hEq
                rw [hEq] at hcf
                exact hcgntr hcf
              have hfne : cf.freq_hz ≠ cg.freq_hz := by
                intro hfeq
                exact hne (hinj cf (hselFE cf hcfsel) cg (hselFE cg hcgsel)
                  hfeq)
              rw [← hcff, ← hcgL]
              omega
      have hcard' : (s \ R).card ≤ fuel := by omega
      obtain ⟨ws', hws', hmem', hnd'⟩ := ih (s \ R) (counter + 1) hsub'
        hinv' hcard'
      refine ⟨⟨counter, windowHardwareFreq L bandwidth, bandwidth, tr⟩ :: ws',
        ?_, ?_, ?_⟩
      · rw [buildWindowsAux, dif_pos hs]
        rw [← hL, ← hHI, ← hselDef, ← htrDef]
        simp only [hrem, hws']
      · intro cc
        have hwc : windowChannels
            (⟨counter, windowHardwareFreq L bandwidth, bandwidth, tr⟩ :: ws')
            = tr ++ windowChannels ws' := rfl
        rw [hwc, List.mem_append]
        constructor
        · rintro (h | h)
          · rcases (hselMem cc).mp (htrSel cc h) with ⟨hin, hen, _, _⟩
            exact ⟨hin, hen, htrS cc h⟩
          · rcases (hmem' cc).mp h with ⟨hin, hen, hfs'⟩
            exact ⟨hin, hen, (Finset.mem_sdiff.mp hfs').1⟩
        · rintro ⟨hin, hen, hfs⟩
          by_cases hfR : cc.freq_hz ∈ R
          case pos =>
            rcases (hRmem _).mp hfR with ⟨cf, hcf, hcff⟩
            left
            have hEq : cf = cc := hinj cf (hselFE cf (htrSel cf hcf)) cc
              (List.mem_filter.mpr ⟨hin, hen⟩) hcff
            rw [← hEq]
            exact hcf
          case neg =>
            right
            exact (hmem' cc).mpr ⟨hin, hen, Finset.mem_sdiff.mpr ⟨hfs, hfR⟩⟩
      · have hwc : windowChannels
            (⟨counter, windowHardwareFreq L bandwidth, bandwidth, tr⟩ :: ws')
            = tr ++ windowChannels ws' := rfl
        rw [hwc, List.nodup_append]
        refine ⟨htrNodup, hnd', ?_⟩
        intro a ha hab
        have h1 : a.freq_hz ∈ R := (hRmem _).mpr ⟨a, ha, rfl⟩
        have h2 := ((hmem' a).mp hab).2.2
        exact (Finset.mem_sdiff.mp h2).2 h1

/-- C1 (amended): when the effectively-enabled channels have pairwise
distinct frequencies, the bandwidth leaves room for the band-edge margin on
both sides, and at least one channel per window is allowed, `buildWindows`
succeeds and its windows hold every enabled channel exactly once and no
disabled channel; every window channel is one of the configured channels.
Without distinct frequencies the loop either raises `KeyError` or silently
drops a channel (`C1_counterexample`). -/
theorem C1_window_partition (ccs : List ChannelConfig) (bandwidth : Int)
    (maxPW : Nat)
    (hdist : ((ccs.filter (fun cc => cc.isEnabled)).map
        (fun cc => cc.freq_hz)).Nodup)
    (hbw : 2 * BAND_EDGE_MARGIN ≤ bandwidth) (hmax : 1 ≤ maxPW) :
    ∃ ws, buildWindows ccs bandwidth maxPW = some ws ∧
      (∀ cc ∈ ccs, cc.isEnabled = true →
        (windowChannels ws).count cc = 1) ∧
      (∀ cc : ChannelConfig, cc.isEnabled = false →
        (windowChannels ws).count cc = 0) ∧
      (∀ cc ∈ windowChannels ws, cc.isEnabled = true ∧ cc ∈ ccs) := by
  obtain ⟨ws, heq, hmem, hnd⟩ := buildWindowsAux_spec ccs bandwidth maxPW
    hdist hbw hmax (enabledFreqs ccs).card (enabledFreqs ccs) 0
    (fun f hf => hf) (fun f hf hnf => absurd hf hnf) (le_refl _)
  refine ⟨ws, heq, ?_, ?_, ?_⟩
  · intro cc hc he
    have hfm : cc.freq_hz ∈ enabledFreqs ccs :=
      List.mem_toFinset.mpr (List.mem_map.mpr
        ⟨cc, List.mem_filter.mpr ⟨hc, he⟩, rfl⟩)
    exact List.count_eq_one_of_mem hnd ((hmem cc).mpr ⟨hc, he, hfm⟩)
  · intro cc he
    refine List.count_eq_zero.mpr ?_
    intro hin
    have := ((hmem cc).mp hin).2.1
    rw [he] at this
    exact Bool.false_ne_true this
  · intro cc hc
    obtain ⟨h1, h2, _⟩ := (hmem cc).mp hc
    exact ⟨h2, h1⟩

/-- C1 witness: the five NOAA-band channels of the spec's scenario S1 at a
2.048 MS/s bandwidth with up to 16 channels per window. -/
theorem C1_window_partition_witness :
    ∃ ws, buildWindows [mkChannelConfig 1 162400000,
        mkChannelConfig 2 162425000, mkChannelConfig 3 162550000,
        mkChannelConfig 4 163000000, mkChannelConfig 5 165000000]
        2048000 16 = some ws ∧
      (∀ cc ∈ [mkChannelConfig 1 162400000, mkChannelConfig 2 162425000,
          mkChannelConfig 3 162550000, mkChannelConfig 4 163000000,
          mkChannelConfig 5 165000000], cc.isEnabled = true →
        (windowChannels ws).count cc = 1) ∧
      (∀ cc : ChannelConfig, cc.isEnabled = false →
        (windowChannels ws).count cc = 0) ∧
      (∀ cc ∈ windowChannels ws, cc.isEnabled = true ∧
        cc ∈ [mkChannelConfig 1 162400000, mkChannelConfig 2 162425000,
          mkChannelConfig 3 162550000, mkChannelConfig 4 163000000,
          mkChannelConfig 5 165000000]) :=
  C1_window_partition _ 2048000 16 (by decide) (by decide) (by decide)

/-- C1 counterexample: two enabled channels sharing a frequency.  With
`maxChannelsPerWindow = 1` the planner silently drops channel 2 — it is
enabled yet sits in no window; with a larger cap the double
`freqsToAllocate.remove` raises `KeyError` (the `none`). -/
theorem C1_counterexample :
    buildWindows [mkChannelConfig 1 500000, mkChannelConfig 2 500000]
        600000 1
      = some [⟨0, 600000, 600000, [mkChannelConfig 1 500000]⟩] ∧
    buildWindows [mkChannelConfig 1 500000, mkChannelConfig 2 500000]
        600000 16 = none ∧
    (mkChannelConfig 2 500000).isEnabled = true ∧
    (windowChannels [⟨0, 600000, 600000, [mkChannelConfig 1 500000]⟩]).count
        (mkChannelConfig 2 500000) = 0 := by
  decide

end SdrScanner
